import Mathlib

/-!
Verification of the page-caching core (LRU-K replacer, extendible hash
table, buffer pool manager) against its source in
`src/buffer/lru_k_replacer.cpp`, `src/container/hash/extendible_hash_table.cpp`
and `src/buffer/buffer_pool_manager_instance.cpp`.

The C++ state is embedded shallowly: the `std::set<std::pair<size_t,
frame_id_t>>` timestamp indices become lists kept in lexicographic order
(`ordInsert`); `std::unordered_map` / `std::unordered_set` members become
association lists / membership lists (only `count`, `size`, `insert`,
`erase` are used on them in the source, never iteration, so the order of
these lists is immaterial).  Frame ids and timestamps are `Nat`; page ids
are `Int` (INVALID_PAGE_ID = -1).
-/

set_option linter.unusedVariables false

/-! ### List-based replacements for the C++ standard containers -/

/-- `m.find(k)` on an association map, with default `d` (models
`operator[]` read of `std::unordered_map` where absent keys read as 0). -/
def assocGetD (l : List (Nat × Nat)) (k : Nat) (d : Nat) : Nat :=
  match l.find? (fun p => p.1 == k) with
  | some p => p.2
  | none => d

/-- `m[k] = v` on an association map. -/
def assocSet : List (Nat × Nat) → Nat → Nat → List (Nat × Nat)
  | [], k, v => [(k, v)]
  | p :: rest, k, v => if p.1 == k then (k, v) :: rest else p :: assocSet rest k v

/-- `m.erase(k)` on an association map. -/
def assocErase (l : List (Nat × Nat)) (k : Nat) : List (Nat × Nat) :=
  l.filter (fun p => p.1 != k)

/-- membership test on a set of frame ids (`s.count(x) != 0`). -/
def setMem (l : List Nat) (x : Nat) : Bool :=
  l.contains x

/-- `s.insert(x)` on a set of frame ids. -/
def setInsert (l : List Nat) (x : Nat) : List Nat :=
  if l.contains x then l else l ++ [x]

/-- `s.erase(x)` on a set of frame ids. -/
def setErase (l : List Nat) (x : Nat) : List Nat :=
  l.filter (fun y => y != x)

/-- insertion into a `std::set<std::pair<size_t, frame_id_t>>`: the list
is kept sorted lexicographically by (timestamp, id). -/
def ordInsert : List (Nat × Nat) → Nat × Nat → List (Nat × Nat)
  | [], e => [e]
  | p :: rest, e =>
      if e.1 < p.1 ∨ (e.1 = p.1 ∧ e.2 < p.2) then e :: p :: rest
      else p :: ordInsert rest e

/-- `s.erase(e)` on a `std::set` of pairs. -/
def pairErase (l : List (Nat × Nat)) (e : Nat × Nat) : List (Nat × Nat) :=
  l.filter (fun p => p != e)

/-- membership of a frame id in a (timestamp, id) index. -/
def timeIdHas (l : List (Nat × Nat)) (f : Nat) : Bool :=
  l.any (fun p => p.2 == f)

/-- the entry of frame `f` in a (timestamp, id) index (the source keeps a
mirror map `id → time`; `lower_bound({f,0})` retrieves the unique entry). -/
def timeIdEntry (l : List (Nat × Nat)) (f : Nat) : Option (Nat × Nat) :=
  l.find? (fun p => p.2 == f)

/-- Scan a (timestamp, id) index in set order for the first entry whose id
is in the evictable set `ev`; remove that entry from the index and its id
from `ev` and report it.  This is the `std::any_of` loop of `Evict` and
the overflow scans of `RecordAccess` / `SetEvictable`. -/
def removeFirstEvictable : List (Nat × Nat) → List Nat →
    List (Nat × Nat) × List Nat × Option Nat
  | [], ev => ([], ev, none)
  | e :: rest, ev =>
      if setMem ev e.2 then (rest, setErase ev e.2, some e.2)
      else
        let r := removeFirstEvictable rest ev
        (e :: r.1, r.2.1, r.2.2)

/-! ### LRU-K replacer (`src/buffer/lru_k_replacer.cpp`) -/

/-- State of `LRUKReplacer`.  The source keeps each timestamp index twice
(`*_id_time_` and `*_time_id_`, mirrors of each other keyed the two ways);
the model keeps one copy in (timestamp, id) order. -/
structure LRUKReplacer where
  replacer_size_ : Nat
  k_ : Nat
  current_timestamp_ : Nat
  history_time_id_ : List (Nat × Nat)
  history_cnt_ : List (Nat × Nat)
  history_is_evictable_ : List Nat
  cache_time_id_ : List (Nat × Nat)
  cache_is_evictable_ : List Nat
  deriving Repr, DecidableEq

namespace LRUKReplacer

/-- `LRUKReplacer(num_frames, k)`. -/
def init (num_frames k : Nat) : LRUKReplacer :=
  ⟨num_frames, k, 0, [], [], [], [], []⟩

/-- `Size()`: number of evictable frames. -/
def Size (r : LRUKReplacer) : Nat :=
  r.history_is_evictable_.length + r.cache_is_evictable_.length

/-- `RecordAccess(frame_id)`.  Note that the source performs no range
check on `frame_id` (the check is commented out), and that a repeated
access of a history frame whose count stays below K erases the frame's
old index entry and re-inserts it at the fresh timestamp. -/
def RecordAccess (r : LRUKReplacer) (f : Nat) : LRUKReplacer :=
  match timeIdEntry r.cache_time_id_ f with
  | some e =>  -- frame is in the cache queue: refresh its timestamp
      { r with
        cache_time_id_ :=
          ordInsert (pairErase r.cache_time_id_ e) (r.current_timestamp_, f),
        current_timestamp_ := r.current_timestamp_ + 1 }
  | none =>
    match timeIdEntry r.history_time_id_ f with
    | some e =>  -- frame is in the history queue
        let hist := pairErase r.history_time_id_ e
        let c := assocGetD r.history_cnt_ f 0 + 1
        if c == r.k_ then
          -- migrate to the cache queue
          let r1 :=
            if setMem r.history_is_evictable_ f then
              let r0 :=
                if r.cache_is_evictable_.length == r.replacer_size_ then
                  let q := removeFirstEvictable r.cache_time_id_ r.cache_is_evictable_
                  { r with cache_time_id_ := q.1, cache_is_evictable_ := q.2.1 }
                else r
              { r0 with
                history_is_evictable_ := setErase r0.history_is_evictable_ f,
                cache_is_evictable_ := setInsert r0.cache_is_evictable_ f }
            else r
          { r1 with
            history_time_id_ := hist,
            history_cnt_ := assocErase r.history_cnt_ f,
            cache_time_id_ := ordInsert r1.cache_time_id_ (r.current_timestamp_, f),
            current_timestamp_ := r.current_timestamp_ + 1 }
        else  -- stays in history, re-keyed at the fresh timestamp
          { r with
            history_time_id_ := ordInsert hist (r.current_timestamp_, f),
            history_cnt_ := assocSet r.history_cnt_ f c,
            current_timestamp_ := r.current_timestamp_ + 1 }
    | none =>  -- unknown frame: enters history with count 1, not evictable
        { r with
          history_cnt_ := assocSet r.history_cnt_ f 1,
          history_time_id_ := ordInsert r.history_time_id_ (r.current_timestamp_, f),
          current_timestamp_ := r.current_timestamp_ + 1 }

/-- `SetEvictable(frame_id, set_evictable)`.  No range check (commented
out in the source). -/
def SetEvictable (r : LRUKReplacer) (f : Nat) (flag : Bool) : LRUKReplacer :=
  match timeIdEntry r.history_time_id_ f with
  | some _ =>
      if flag && !(setMem r.history_is_evictable_ f) then
        let r1 :=
          if r.history_is_evictable_.length == r.replacer_size_ then
            let q := removeFirstEvictable r.history_time_id_ r.history_is_evictable_
            let r' := { r with history_time_id_ := q.1, history_is_evictable_ := q.2.1 }
            match q.2.2 with
            | some g => { r' with history_cnt_ := assocSet r'.history_cnt_ g 0 }
            | none => r'
          else r
        { r1 with history_is_evictable_ := setInsert r1.history_is_evictable_ f }
      else if !flag then
        { r with history_is_evictable_ := setErase r.history_is_evictable_ f }
      else r
  | none =>
    match timeIdEntry r.cache_time_id_ f with
    | some _ =>
        if flag && !(setMem r.cache_is_evictable_ f) then
          let r1 :=
            if r.cache_is_evictable_.length == r.replacer_size_ then
              let q := removeFirstEvictable r.cache_time_id_ r.cache_is_evictable_
              { r with cache_time_id_ := q.1, cache_is_evictable_ := q.2.1 }
            else r
          { r1 with cache_is_evictable_ := setInsert r1.cache_is_evictable_ f }
        else if !flag then
          { r with cache_is_evictable_ := setErase r.cache_is_evictable_ f }
        else r
    | none => r

/-- `Remove(frame_id)`.  The second component is `true` when the frame is
tracked but not evictable: the source then throws, catches and prints
"The frame is not evictable!" to the diagnostic channel, leaving the
state unchanged. -/
def Remove (r : LRUKReplacer) (f : Nat) : LRUKReplacer × Bool :=
  match timeIdEntry r.history_time_id_ f with
  | some e =>
      if !(setMem r.history_is_evictable_ f) then (r, true)
      else
        ({ r with
           history_is_evictable_ := setErase r.history_is_evictable_ f,
           history_cnt_ := assocSet r.history_cnt_ f 0,
           history_time_id_ := pairErase r.history_time_id_ e }, false)
  | none =>
    match timeIdEntry r.cache_time_id_ f with
    | some e =>
        if !(setMem r.cache_is_evictable_ f) then (r, true)
        else
          ({ r with
             cache_is_evictable_ := setErase r.cache_is_evictable_ f,
             cache_time_id_ := pairErase r.cache_time_id_ e }, false)
    | none => (r, false)

/-- `Evict(frame_id)`: `some (victim, new state)` on success. -/
def Evict (r : LRUKReplacer) : Option (Nat × LRUKReplacer) :=
  if r.Size == 0 then none
  else
    match removeFirstEvictable r.history_time_id_ r.history_is_evictable_ with
    | (h, ev, some id) =>
        some (id, { r with
                    history_time_id_ := h,
                    history_is_evictable_ := ev,
                    history_cnt_ := assocErase r.history_cnt_ id })
    | (_, _, none) =>
      match removeFirstEvictable r.cache_time_id_ r.cache_is_evictable_ with
      | (c, ev, some id) =>
          some (id, { r with cache_time_id_ := c, cache_is_evictable_ := ev })
      | _ => none

end LRUKReplacer

/-! ### Extendible hash table (`src/container/hash/extendible_hash_table.cpp`)

Monomorphized at the `<int, int>` instantiation with keys restricted to
the non-negative range (libstdc++ `std::hash<int>` is the identity, so
`hash(k) = k`).  The C++ directory holds `shared_ptr<Bucket>`; aliasing
is modelled with a flat bucket store and a directory of bucket ids, as
the design notes of the spec themselves suggest. -/

/-- One bucket.  `size_` is the capacity passed to the constructor,
`list_` the key-value pairs in list order.  The bucket accessors
(`IsFull`, `GetItems`, `GetDepth`, `IncrementDepth`) are inline in a
header that is not part of the sources; modelled from the spec: a bucket
"holds up to `bucket_size` key-value pairs", so it is full exactly when
`list_` has `size_` entries. -/
structure Bucket where
  size_ : Nat
  depth_ : Nat
  list_ : List (Nat × Nat)
  deriving Repr, DecidableEq

namespace Bucket

/-- `Bucket::IsFull()`. -/
def IsFull (b : Bucket) : Bool :=
  b.list_.length == b.size_

/-- `Bucket::Find(key, value)`: first pair with the key, scanning in list
order. -/
def Find (b : Bucket) (k : Nat) : Option Nat :=
  match b.list_.find? (fun p => p.1 == k) with
  | some p => some p.2
  | none => none

/-- erase the first pair with key `k` (`Bucket::Remove`). -/
def removeKey : List (Nat × Nat) → Nat → List (Nat × Nat)
  | [], _ => []
  | p :: rest, k => if p.1 == k then rest else p :: removeKey rest k

/-- `Bucket::Insert(key, value)`: fails on a full bucket, otherwise
removes an existing pair with the key and appends the new pair. -/
def Insert (b : Bucket) (k v : Nat) : Bool × Bucket :=
  if b.IsFull then (false, b)
  else
    let b1 := if (b.Find k).isSome then { b with list_ := removeKey b.list_ k } else b
    (true, { b1 with list_ := b1.list_ ++ [(k, v)] })

end Bucket

/-- State of `ExtendibleHashTable`.  `store` is the arena of all bucket
objects ever allocated (`std::make_shared` calls) and `dir_` holds the
indices of the buckets the directory references, so that shared buckets
(several slots referencing one `shared_ptr`) are represented exactly. -/
structure ExtendibleHashTable where
  global_depth_ : Nat
  bucket_size_ : Nat
  num_buckets_ : Nat
  store : List Bucket
  dir_ : List Nat
  deriving Repr, DecidableEq

namespace ExtendibleHashTable

/-- `ExtendibleHashTable(bucket_size)`: depth 0, one empty bucket. -/
def new (bucket_size : Nat) : ExtendibleHashTable :=
  ⟨0, bucket_size, 1, [⟨bucket_size, 0, []⟩], [0]⟩

/-- `IndexOf(key) = hash(key) & ((1 << global_depth_) - 1)`. -/
def IndexOf (t : ExtendibleHashTable) (k : Nat) : Nat :=
  k % 2 ^ t.global_depth_

/-- the bucket referenced by directory slot `i`. -/
def bucketAt (t : ExtendibleHashTable) (i : Nat) : Bucket :=
  t.store.getD (t.dir_.getD i 0) ⟨0, 0, []⟩

/-- `GetGlobalDepth()`. -/
def GetGlobalDepth (t : ExtendibleHashTable) : Nat :=
  t.global_depth_

/-- `GetNumBuckets()`. -/
def GetNumBuckets (t : ExtendibleHashTable) : Nat :=
  t.num_buckets_

/-- `Find(key, value)`. -/
def Find (t : ExtendibleHashTable) (k : Nat) : Option Nat :=
  (t.bucketAt (t.IndexOf k)).Find k

/-- replace the bucket referenced by slot `i` (in-place mutation through
the shared pointer: every aliasing slot sees the update). -/
def updateBucketAt (t : ExtendibleHashTable) (i : Nat)
    (f : Bucket → Bucket) : ExtendibleHashTable :=
  let bid := t.dir_.getD i 0
  { t with store := t.store.set bid (f (t.store.getD bid ⟨0, 0, []⟩)) }

/-- The directory-doubling split (branch `global_depth_ == local depth`
of `Insert`): double the directory, bump the full bucket's depth,
allocate one fresh bucket (capacity read before `bucket_size_++`) at
slot `bucket_id + old_size`, and move every pair whose new index differs
from `bucket_id` into it. -/
def splitDouble (t : ExtendibleHashTable) (bucket_id : Nat) : ExtendibleHashTable :=
  let old_sz := t.dir_.length
  let bid := t.dir_.getD bucket_id 0
  let bt := t.store.getD bid ⟨0, 0, []⟩
  let g' := t.global_depth_ + 1
  let newBid := t.store.length
  let keep := bt.list_.filter (fun p => p.1 % 2 ^ g' == bucket_id)
  let move := bt.list_.filter (fun p => !(p.1 % 2 ^ g' == bucket_id))
  { global_depth_ := g',
    bucket_size_ := t.bucket_size_ + 1,  -- the source's `bucket_size_++`
    num_buckets_ := t.num_buckets_,
    store := (t.store.set bid { bt with depth_ := bt.depth_ + 1, list_ := keep })
               ++ [⟨t.bucket_size_, bt.depth_ + 1, move⟩],
    dir_ := ((t.dir_ ++ t.dir_).set (bucket_id + old_sz) newBid) }

/-- The slot-rewiring loop of the non-doubling split: every slot `i` with
`i & mask == bucket_id & mask` gets a fresh bucket of depth
`global_depth_`; `bucket_size_` is incremented for each such slot other
than `bucket_id` itself, *while the loop runs*, so later fresh buckets
read a larger capacity. -/
def splitSlots (t : ExtendibleHashTable) (bucket_id m : Nat) :
    List Nat → ExtendibleHashTable
  | [] => t
  | i :: rest =>
      if i % m == bucket_id % m then
        let t1 := { t with
                    store := t.store ++ [⟨t.bucket_size_, t.global_depth_, []⟩],
                    dir_ := t.dir_.set i t.store.length,
                    bucket_size_ :=
                      if i == bucket_id then t.bucket_size_ else t.bucket_size_ + 1 }
        splitSlots t1 bucket_id m rest
      else splitSlots t bucket_id m rest

/-- The non-doubling split (branch `global_depth_ > local depth` of
`Insert`): snapshot the full bucket's pairs, re-point every aliasing slot
at a fresh bucket, then re-insert the snapshot through
`dir_[IndexOf(k)]->Insert`. -/
def splitLocal (t : ExtendibleHashTable) (bucket_id : Nat) : ExtendibleHashTable :=
  let bid := t.dir_.getD bucket_id 0
  let old_list := (t.store.getD bid ⟨0, 0, []⟩).list_
  let m := 2 ^ (t.store.getD bid ⟨0, 0, []⟩).depth_
  let t1 := splitSlots t bucket_id m (List.range t.dir_.length)
  old_list.foldl
    (fun acc p => acc.updateBucketAt (acc.IndexOf p.1) (fun b => (b.Insert p.1 p.2).2))
    t1

/-- The `while (bucket_tar->IsFull())` loop of `Insert`, with explicit
fuel (the C++ loop can diverge, e.g. with `bucket_size == 0`; on fuel
exhaustion the state is returned with the pair not inserted). -/
def insertLoop (k v : Nat) : Nat → ExtendibleHashTable → ExtendibleHashTable
  | 0, t => t
  | fuel + 1, t =>
      let bucket_id := t.IndexOf k
      if bucket_id ≥ t.dir_.length then t
      else if (t.bucketAt bucket_id).IsFull then
        let t' :=
          if t.global_depth_ == (t.bucketAt bucket_id).depth_ then
            splitDouble t bucket_id
          else
            splitLocal t bucket_id
        insertLoop k v fuel t'
      else
        t.updateBucketAt bucket_id (fun b => (b.Insert k v).2)

/-- largest key stored anywhere in the arena (only used to size the fuel
of `Insert`). -/
def maxKey (t : ExtendibleHashTable) : Nat :=
  t.store.foldl (fun m b => b.list_.foldl (fun m p => max m p.1) m) 0

/-- `Insert(key, value)`.  The fuel is large enough for every terminating
run of the source loop (each non-doubling split is followed by a doubling
or by loop exit, and the loop always exits once `2 ^ global_depth_`
exceeds every key present as well as `key`). -/
def Insert (t : ExtendibleHashTable) (k v : Nat) : ExtendibleHashTable :=
  insertLoop k v (2 * (k + t.maxKey + t.global_depth_) + 8) t

/-- `Remove(key)`. -/
def Remove (t : ExtendibleHashTable) (k : Nat) : Bool × ExtendibleHashTable :=
  let bucket_id := t.IndexOf k
  if ((t.bucketAt bucket_id).Find k).isSome then
    (true, t.updateBucketAt bucket_id (fun b => { b with list_ := Bucket.removeKey b.list_ k }))
  else (false, t)

/-- a sequence of `Insert` calls. -/
def insertAll (t : ExtendibleHashTable) (ps : List (Nat × Nat)) : ExtendibleHashTable :=
  ps.foldl (fun acc p => acc.Insert p.1 p.2) t

end ExtendibleHashTable

/-! ### Buffer pool manager (`src/buffer/buffer_pool_manager_instance.cpp`)

Page ids are `Int` (`INVALID_PAGE_ID = -1`).  The page table
(`ExtendibleHashTable<page_id_t, frame_id_t>`) is used purely through
`Find` / `Insert` / `Remove` and is modelled as the finite map those
calls implement, as an association list; the disk manager is modelled as
a map from page id to page content.  Page data buffers are abstracted to
one value per page (`0` = the zeroed buffer). -/

def INVALID_PAGE_ID : Int := -1

/-- The page frame record (§4.4 of the spec; the `Page` class itself is
declared in a header outside the sources).  Modelled from the spec: a
data buffer, the resident page id, a pin count and a dirty flag;
`ResetMemory` zeroes the buffer; frames start empty. -/
structure Page where
  page_id_ : Int
  pin_count_ : Nat
  is_dirty_ : Bool
  data_ : Nat
  deriving Repr, DecidableEq

/-- a frame as constructed at pool startup. -/
def Page.empty : Page := ⟨INVALID_PAGE_ID, 0, false, 0⟩

/-- lookup in the page table (`page_table_->Find(page_id, frame_id)`). -/
def ptFind (l : List (Int × Nat)) (pid : Int) : Option Nat :=
  match l.find? (fun p => p.1 == pid) with
  | some p => some p.2
  | none => none

/-- `page_table_->Insert(page_id, frame_id)` (replace or append). -/
def ptInsert : List (Int × Nat) → Int → Nat → List (Int × Nat)
  | [], pid, f => [(pid, f)]
  | p :: rest, pid, f =>
      if p.1 == pid then (pid, f) :: rest else p :: ptInsert rest pid f

/-- `page_table_->Remove(page_id)`. -/
def ptRemove (l : List (Int × Nat)) (pid : Int) : List (Int × Nat) :=
  l.filter (fun p => p.1 != pid)

/-- disk contents: map page id → content (`DiskManager::WritePage`). -/
def diskWrite (l : List (Int × Nat)) (pid : Int) (d : Nat) : List (Int × Nat) :=
  match l with
  | [] => [(pid, d)]
  | p :: rest => if p.1 == pid then (pid, d) :: rest else p :: diskWrite rest pid d

/-- `DiskManager::ReadPage` (an unwritten page reads back zeroed). -/
def diskRead (l : List (Int × Nat)) (pid : Int) : Nat :=
  match l.find? (fun p => p.1 == pid) with
  | some p => p.2
  | none => 0

/-- State of `BufferPoolManagerInstance`, bundled with the disk it talks
to. -/
structure BufferPoolManagerInstance where
  pool_size_ : Nat
  next_page_id_ : Int
  pages_ : List Page
  page_table_ : List (Int × Nat)
  free_list_ : List Nat
  replacer_ : LRUKReplacer
  disk_ : List (Int × Nat)
  deriving Repr, DecidableEq

namespace BufferPoolManagerInstance

/-- `BufferPoolManagerInstance(pool_size, disk_manager, replacer_k, ...)`. -/
def init (pool_size replacer_k : Nat) : BufferPoolManagerInstance :=
  { pool_size_ := pool_size,
    next_page_id_ := 0,
    pages_ := List.replicate pool_size Page.empty,
    page_table_ := [],
    free_list_ := List.range pool_size,
    replacer_ := LRUKReplacer.init pool_size replacer_k,
    disk_ := [] }

/-- `pages_[f]` (reads out of range return an empty frame; never reached
from in-range states). -/
def pageAt (s : BufferPoolManagerInstance) (f : Nat) : Page :=
  s.pages_.getD f Page.empty

/-- in-place update of `pages_[f]`. -/
def setPage (s : BufferPoolManagerInstance) (f : Nat) (p : Page) :
    BufferPoolManagerInstance :=
  { s with pages_ := s.pages_.set f p }

/-- The shared frame-acquisition step of `NewPgImp` / `FetchPgImp`:
front of the free list, else a replacer victim.  The source ignores the
return value of `Evict`; when the replacer reports a non-zero size but
yields no victim the C++ reads an uninitialized frame id — that
situation is unreachable from the initial state and is modelled as
`none`. -/
def acquireFrame (s : BufferPoolManagerInstance) :
    Option (Nat × BufferPoolManagerInstance) :=
  match s.free_list_ with
  | f :: rest => some (f, { s with free_list_ := rest })
  | [] =>
    match s.replacer_.Evict with
    | some (f, r) => some (f, { s with replacer_ := r })
    | none => none

/-- dirty-victim writeback followed by page-table removal (lines 61–65 /
99–103 of the source). -/
def evictWriteback (s : BufferPoolManagerInstance) (f : Nat) :
    BufferPoolManagerInstance :=
  let s1 :=
    if (s.pageAt f).is_dirty_ then
      { s with
        disk_ := diskWrite s.disk_ (s.pageAt f).page_id_ (s.pageAt f).data_,
        pages_ := s.pages_.set f { s.pageAt f with is_dirty_ := false } }
    else s
  { s1 with page_table_ := ptRemove s1.page_table_ (s1.pageAt f).page_id_ }

/-- `NewPgImp(page_id)`: `some frame_id` plus the new state, or `none`. -/
def NewPgImp (s : BufferPoolManagerInstance) :
    Option (Int × Nat) × BufferPoolManagerInstance :=
  if s.free_list_.isEmpty && (s.replacer_.Size == 0) then (none, s)
  else
    match s.acquireFrame with
    | none => (none, s)
    | some (f, s1) =>
      let s2 := evictWriteback s1 f
      let pid := s2.next_page_id_
      let s3 := { s2 with next_page_id_ := s2.next_page_id_ + 1 }
      let s4 := s3.setPage f { page_id_ := pid, pin_count_ := 1, is_dirty_ := false, data_ := 0 }
      let s5 := { s4 with replacer_ := (s4.replacer_.RecordAccess f).SetEvictable f false }
      let s6 := { s5 with page_table_ := ptInsert s5.page_table_ pid f }
      ((some (pid, f)), s6)

/-- `FetchPgImp(page_id)`: `some frame_id` plus the new state, or `none`. -/
def FetchPgImp (s : BufferPoolManagerInstance) (pid : Int) :
    Option Nat × BufferPoolManagerInstance :=
  if pid == INVALID_PAGE_ID then (none, s)
  else
    match ptFind s.page_table_ pid with
    | some f =>
        let s1 := s.setPage f { s.pageAt f with pin_count_ := (s.pageAt f).pin_count_ + 1 }
        let s2 := { s1 with replacer_ := (s1.replacer_.RecordAccess f).SetEvictable f false }
        (some f, s2)
    | none =>
      if s.free_list_.isEmpty && (s.replacer_.Size == 0) then (none, s)
      else
        match s.acquireFrame with
        | none => (none, s)
        | some (f, s1) =>
          let s2 := evictWriteback s1 f
          let s3 := s2.setPage f
            { page_id_ := pid, pin_count_ := 1, is_dirty_ := false,
              data_ := diskRead s2.disk_ pid }
          let s4 := { s3 with page_table_ := ptInsert s3.page_table_ pid f }
          let s5 := { s4 with replacer_ := (s4.replacer_.RecordAccess f).SetEvictable f false }
          (some f, s5)

/-- `UnpinPgImp(page_id, is_dirty)`. -/
def UnpinPgImp (s : BufferPoolManagerInstance) (pid : Int) (is_dirty : Bool) :
    Bool × BufferPoolManagerInstance :=
  if pid == INVALID_PAGE_ID then (false, s)
  else
    match ptFind s.page_table_ pid with
    | none => (false, s)
    | some f =>
      if (s.pageAt f).pin_count_ ≤ 0 then (false, s)
      else
        let s1 := s.setPage f { s.pageAt f with pin_count_ := (s.pageAt f).pin_count_ - 1 }
        let s2 :=
          if (s1.pageAt f).pin_count_ == 0 then
            { s1 with replacer_ := s1.replacer_.SetEvictable f true }
          else s1
        let s3 :=
          if is_dirty then s2.setPage f { s2.pageAt f with is_dirty_ := true } else s2
        (true, s3)

/-- `FlushPgImp(page_id)`. -/
def FlushPgImp (s : BufferPoolManagerInstance) (pid : Int) :
    Bool × BufferPoolManagerInstance :=
  if pid == INVALID_PAGE_ID then (false, s)
  else
    match ptFind s.page_table_ pid with
    | none => (false, s)
    | some f =>
        (true, { s with
                 disk_ := diskWrite s.disk_ pid (s.pageAt f).data_,
                 pages_ := s.pages_.set f { s.pageAt f with is_dirty_ := false } })

/-- `FlushAllPgsImp()`: the source iterates `frame_id` over
`[0, pool_size)` and passes the *frame index* to `FlushPgImp`, which
expects a *page id*. -/
def FlushAllPgsImp (s : BufferPoolManagerInstance) : BufferPoolManagerInstance :=
  (List.range s.pool_size_).foldl (fun acc i => (acc.FlushPgImp (Int.ofNat i)).2) s

/-- `DeletePgImp(page_id)`. -/
def DeletePgImp (s : BufferPoolManagerInstance) (pid : Int) :
    Bool × BufferPoolManagerInstance :=
  if pid == INVALID_PAGE_ID then (false, s)
  else
    match ptFind s.page_table_ pid with
    | none => (true, s)
    | some f =>
      if (s.pageAt f).pin_count_ > 0 then (false, s)
      else
        let s1 := { s with
                    page_table_ := ptRemove s.page_table_ pid,
                    free_list_ := s.free_list_ ++ [f] }
        let s2 := { s1 with
                    replacer_ := ((s1.replacer_.SetEvictable f true).Remove f).1 }
        let s3 := s2.setPage f { page_id_ := INVALID_PAGE_ID, pin_count_ := (s2.pageAt f).pin_count_, is_dirty_ := false, data_ := 0 }
        (true, s3)

end BufferPoolManagerInstance

/-! ### Derived predicates and operation traces -/

/-- frame `f` appears nowhere in the replacer's queues or evictable sets
(`history_cnt_` may still carry an entry zeroed by `Remove`; the source
leaves that residue behind by design). -/
def frameUntracked (r : LRUKReplacer) (f : Nat) : Prop :=
  timeIdHas r.history_time_id_ f = false ∧
  timeIdHas r.cache_time_id_ f = false ∧
  setMem r.history_is_evictable_ f = false ∧
  setMem r.cache_is_evictable_ f = false

/-- frame `f` is not in either evictable set. -/
def frameNonEvictable (r : LRUKReplacer) (f : Nat) : Prop :=
  setMem r.history_is_evictable_ f = false ∧
  setMem r.cache_is_evictable_ f = false

/-- one public replacer operation, for stating temporal properties over
call sequences. -/
inductive ReplacerOp where
  | record (f : Nat)
  | setEvictable (f : Nat) (flag : Bool)
  | remove (f : Nat)
  | evict
  deriving DecidableEq, Repr

/-- apply one operation (discarding outputs). -/
def applyOp (r : LRUKReplacer) : ReplacerOp → LRUKReplacer
  | .record f => r.RecordAccess f
  | .setEvictable f b => r.SetEvictable f b
  | .remove f => (r.Remove f).1
  | .evict =>
    match r.Evict with
    | some q => q.2
    | none => r

/-- apply a sequence of operations. -/
def applyOps (r : LRUKReplacer) (ops : List ReplacerOp) : LRUKReplacer :=
  ops.foldl applyOp r

/-! ### Invariants of the extendible hash table (used by claim C5) -/

/-- Well-formedness of a table state, maintained by `Insert`:
the directory has `2^global_depth_` slots referencing live buckets of
depth at most `global_depth_`; two slots reference the same bucket
exactly when they agree modulo `2^local depth` (invariant I5); every
stored pair matches its bucket's residue (invariant I6); bucket loads
respect capacities, which never exceed the current `bucket_size_`. -/
structure TableWF (t : ExtendibleHashTable) : Prop where
  hlen : t.dir_.length = 2 ^ t.global_depth_
  hbid : ∀ j < t.dir_.length, t.dir_.getD j 0 < t.store.length
  hdep : ∀ j < t.dir_.length, (t.bucketAt j).depth_ ≤ t.global_depth_
  hsh : ∀ j1 < t.dir_.length, ∀ j2 < t.dir_.length,
    (t.dir_.getD j1 0 = t.dir_.getD j2 0 ↔
      j1 % 2 ^ (t.bucketAt j1).depth_ = j2 % 2 ^ (t.bucketAt j1).depth_)
  hkey : ∀ j < t.dir_.length, ∀ p ∈ (t.bucketAt j).list_,
    p.1 % 2 ^ (t.bucketAt j).depth_ = j % 2 ^ (t.bucketAt j).depth_
  hcap : ∀ j < t.dir_.length,
    (t.bucketAt j).list_.length ≤ (t.bucketAt j).size_ ∧
    (t.bucketAt j).size_ ≤ t.bucket_size_ ∧ 0 < (t.bucketAt j).size_
  hbsz : 0 < t.bucket_size_

/-- The table realizes the association list `m`: for every key, the
bucket at the key's directory slot holds exactly the pairs `m` holds for
that key. -/
def Content (t : ExtendibleHashTable) (m : List (Nat × Nat)) : Prop :=
  ∀ k : Nat, (t.bucketAt (t.IndexOf k)).list_.filter (fun p => p.1 == k) =
    m.filter (fun p => p.1 == k)

/-! ### Concrete scenarios used by the claim theorems -/

/-- pool_size 1, K 2: NewPage (page 0), unpin dirty, NewPage (page 1,
evicting and writing back page 0), unpin dirty.  Page 1 is resident at
frame 0 and dirty. -/
def c2state : BufferPoolManagerInstance :=
  (((((BufferPoolManagerInstance.init 1 2).NewPgImp).2.UnpinPgImp 0
      true).2.NewPgImp).2.UnpinPgImp 1 true).2

/-- the spec's directory-doubling scenario: `bucket_size = 2`, insert
(0,a),(1,b),(2,c) (values 100, 101, 102). -/
def c3table : ExtendibleHashTable :=
  ExtendibleHashTable.insertAll (ExtendibleHashTable.new 2)
    [(0, 100), (1, 101), (2, 102)]

/-- `bucket_size = 2`, insert keys 0,1,2,4,6,10: two doubling splits grow
`bucket_size_` to 4, and the bucket created by the second split (capacity
read as 3) ends up holding the three pairs with keys 2, 6, 10. -/
def c4table : ExtendibleHashTable :=
  ExtendibleHashTable.insertAll (ExtendibleHashTable.new 2)
    [(0, 100), (1, 101), (2, 102), (4, 104), (6, 106), (10, 110)]

/-- timestamp of the first access of `f` in a sequence of
`RecordAccess` calls replayed from a fresh replacer (the i-th call is
assigned timestamp i). -/
def firstAccessTime : List Nat → Nat → Option Nat
  | [], _ => none
  | a :: rest, f =>
      if a == f then some 0 else (firstAccessTime rest f).map (· + 1)

/-- K = 3: access frames 1, 2, 1 (all counts stay below K), make both
evictable.  Frame 1's first access has timestamp 0, frame 2's has
timestamp 1, but the history index now keys frame 1 at timestamp 2. -/
def c1state : LRUKReplacer :=
  applyOps (LRUKReplacer.init 3 3)
    [ReplacerOp.record 1, ReplacerOp.record 2, ReplacerOp.record 1,
     ReplacerOp.setEvictable 1 true, ReplacerOp.setEvictable 2 true]

/-- the spec's LRU-K classification scenario (seed test 4): K = 2, four
frames accessed once, all evictable, frame 1 accessed again (migrating
to the cache set). -/
def c1wstate : LRUKReplacer :=
  applyOps (LRUKReplacer.init 4 2)
    [ReplacerOp.record 1, ReplacerOp.record 2, ReplacerOp.record 3,
     ReplacerOp.record 4, ReplacerOp.setEvictable 1 true,
     ReplacerOp.setEvictable 2 true, ReplacerOp.setEvictable 3 true,
     ReplacerOp.setEvictable 4 true, ReplacerOp.record 1]

/-! ### C2 — FlushAllPages -/

/-- C2 (code bug): `FlushAllPgsImp` iterates frame indices but hands them
to `FlushPgImp` as page ids.  In the reachable state `c2state` the only
resident page is page 1 (valid, in the page table at frame 0) and it is
dirty, yet `FlushAllPgsImp` leaves it dirty and never writes it to disk —
contradicting the claim that every resident page is written and its dirty
flag cleared. -/
theorem C2_flushAll_skips_resident_page :
    ptFind c2state.page_table_ 1 = some 0 ∧
    (c2state.pageAt 0).page_id_ = 1 ∧
    (c2state.pageAt 0).is_dirty_ = true ∧
    ((c2state.FlushAllPgsImp).pageAt 0).is_dirty_ = true ∧
    (c2state.FlushAllPgsImp).disk_.find? (fun p => p.1 == 1) = none := by
  decide

/-! ### C3 — number of buckets -/

/-- C3 (code bug): the split code increments `bucket_size_` instead of
`num_buckets_` (the unused `UpdateNumBuckets` helper shows the intent),
so after the spec's own scenario — `bucket_size = 2`, insert
(0,a),(1,b),(2,c) — `GetNumBuckets()` still returns 1 although two
distinct buckets are reachable from the directory, where the claim
requires 2. -/
theorem C3_getNumBuckets_stuck_at_one :
    c3table.GetNumBuckets = 1 ∧
    c3table.dir_.dedup.length = 2 ∧
    c3table.GetGlobalDepth = 1 := by
  decide

/-! ### C4 — bucket capacity -/

/-- C4 (code bug): because every split increments the configuration field
`bucket_size_`, buckets created by later splits are built with a larger
capacity than the one fixed at construction.  After inserting keys
0,1,2,4,6,10 into a table constructed with `bucket_size = 2`, the bucket
reachable from directory slot 2 holds three key-value pairs, violating
the claimed bound of 2 at an externally observable point. -/
theorem C4_bucket_exceeds_construction_capacity :
    (c4table.bucketAt 2).list_.length = 3 ∧
    (c4table.bucketAt 2).size_ = 3 ∧
    c4table.bucket_size_ = 4 := by
  decide

/-! ### C9 — frame-id validation in the replacer -/

/-- C9 (counterexample): the range checks of `RecordAccess` /
`SetEvictable` / `Remove` are commented out in the source.  On a replacer
of size 2, `RecordAccess(5)` (5 ∉ [0,2)) changes the state and tracks
frame 5 in the history set — the claim's "no replacer state changes" and
"never becomes a tracked frame" are both false. -/
theorem C9_out_of_range_id_is_tracked :
    ((LRUKReplacer.init 2 2).RecordAccess 5).history_time_id_ = [(0, 5)] ∧
    ((LRUKReplacer.init 2 2).RecordAccess 5) ≠ LRUKReplacer.init 2 2 := by
  decide

/-- C9 (amended): the replacer performs no frame-id validation: a frame
id `f` outside `[0, num_frames)` is handled exactly like any other id —
`RecordAccess` on a fresh replacer tracks it in the history set with
count 1 at the current timestamp, a following `SetEvictable(f, true)`
makes it count towards `Size()`, and a following `Remove(f)` removes it
without reporting an error. -/
theorem C9_no_validation_out_of_range_tracked (n k f : Nat) (hf : n ≤ f) :
    ((LRUKReplacer.init n k).RecordAccess f).history_time_id_ = [(0, f)] ∧
    ((LRUKReplacer.init n k).RecordAccess f).history_cnt_ = [(f, 1)] ∧
    (((LRUKReplacer.init n k).RecordAccess f).SetEvictable f true).Size = 1 ∧
    ((((LRUKReplacer.init n k).RecordAccess f).SetEvictable f true).Remove f).2 = false := by
  have h1 : (LRUKReplacer.init n k).RecordAccess f =
      ⟨n, k, 1, [(0, f)], [(f, 1)], [], [], []⟩ := by
    simp [LRUKReplacer.RecordAccess, LRUKReplacer.init, timeIdEntry, ordInsert, assocSet]
  have h2 : (LRUKReplacer.SetEvictable ⟨n, k, 1, [(0, f)], [(f, 1)], [], [], []⟩ f true) =
      ⟨n, k, 1, [(0, f)], [(f, 1)], [f], [], []⟩ := by
    simp only [LRUKReplacer.SetEvictable, timeIdEntry, List.find?, beq_self_eq_true,
      setMem, List.contains, List.elem_nil, Bool.not_false, Bool.and_self]
    split <;> simp_all [removeFirstEvictable, setMem, setInsert] <;>
      split <;> simp_all
  rw [h1, h2]
  refine ⟨rfl, rfl, rfl, ?_⟩
  simp [LRUKReplacer.Remove, timeIdEntry, setMem]

/-- C9 witness: the amended theorem applied at `n = 2`, `f = 5`. -/
theorem C9_witness :
    ((LRUKReplacer.init 2 2).RecordAccess 5).history_time_id_ = [(0, 5)] ∧
    ((LRUKReplacer.init 2 2).RecordAccess 5).history_cnt_ = [(5, 1)] ∧
    (((LRUKReplacer.init 2 2).RecordAccess 5).SetEvictable 5 true).Size = 1 ∧
    ((((LRUKReplacer.init 2 2).RecordAccess 5).SetEvictable 5 true).Remove 5).2 = false :=
  C9_no_validation_out_of_range_tracked 2 2 5 (by decide)

/-! ### Helper lemmas about the container models -/

theorem getD_set_self {α : Type} (l : List α) (i : Nat) (a d : α)
    (h : i < l.length) : (l.set i a).getD i d = a := by
  simp [List.getD, List.getElem?_set_self, h]

theorem getD_set_ne {α : Type} (l : List α) (i j : Nat) (a d : α)
    (h : i ≠ j) : (l.set i a).getD j d = l.getD j d := by
  simp [List.getD, List.getElem?_set_ne, h]

theorem timeIdEntry_eq_filter_head (l : List (Nat × Nat)) (f : Nat) :
    timeIdEntry l f = (l.filter (fun p => p.2 == f)).head? := by
  induction l with
  | nil => rfl
  | cons p rest ih =>
      by_cases h : p.2 = f
      · simp [timeIdEntry, List.find?, List.filter, h]
      · simp only [timeIdEntry, List.find?, List.filter] at *
        rw [show (p.2 == f) = false by simp [h]]
        simpa using ih

theorem timeIdHas_false_iff (l : List (Nat × Nat)) (f : Nat) :
    timeIdHas l f = false ↔ ∀ p ∈ l, p.2 ≠ f := by
  simp [timeIdHas]

theorem setMem_iff (l : List Nat) (x : Nat) : setMem l x = true ↔ x ∈ l := by
  simp [setMem]

theorem setMem_false_iff (l : List Nat) (x : Nat) :
    setMem l x = false ↔ x ∉ l := by
  rw [← Bool.not_eq_true, not_iff_not]; exact setMem_iff l x

theorem mem_setErase (l : List Nat) (x y : Nat) :
    x ∈ setErase l y ↔ x ∈ l ∧ x ≠ y := by
  simp [setErase, List.mem_filter]

theorem mem_setInsert (l : List Nat) (x y : Nat) :
    x ∈ setInsert l y ↔ x ∈ l ∨ x = y := by
  unfold setInsert
  split
  · rename_i h
    constructor
    · exact Or.inl
    · rintro (hx | rfl)
      · exact hx
      · exact List.elem_iff.mp h
  · simp [or_comm]

theorem timeIdHas_iff_filter (l : List (Nat × Nat)) (f : Nat) :
    timeIdHas l f = true ↔ l.filter (fun p => p.2 == f) ≠ [] := by
  rw [Ne, List.filter_eq_nil_iff]
  simp [timeIdHas, List.any_eq_true]

theorem timeIdEntry_none_of_has_false (l : List (Nat × Nat)) (f : Nat)
    (h : timeIdHas l f = false) : timeIdEntry l f = none := by
  rw [timeIdEntry_eq_filter_head]
  have h2 : l.filter (fun p => p.2 == f) = [] := by
    rw [List.filter_eq_nil_iff]
    intro p hp
    simp [(timeIdHas_false_iff l f).mp h p hp]
  simp [h2]

theorem setMem_setErase_self (l : List Nat) (x : Nat) :
    setMem (setErase l x) x = false := by
  rw [setMem_false_iff, mem_setErase]
  simp

theorem setMem_setInsert_self (l : List Nat) (x : Nat) :
    setMem (setInsert l x) x = true := by
  rw [setMem_iff, mem_setInsert]
  simp

theorem setMem_setErase_ne (l : List Nat) (x y : Nat) (h : y ≠ x) :
    setMem (setErase l x) y = setMem l y := by
  by_cases hy : y ∈ l
  · rw [(setMem_iff l y).mpr hy, (setMem_iff _ y).mpr ((mem_setErase l y x).mpr ⟨hy, h⟩)]
  · rw [(setMem_false_iff l y).mpr hy, (setMem_false_iff _ y).mpr
      (fun hc => hy ((mem_setErase l y x).mp hc).1)]

theorem setMem_setInsert_ne (l : List Nat) (x y : Nat) (h : y ≠ x) :
    setMem (setInsert l x) y = setMem l y := by
  by_cases hy : y ∈ l
  · rw [(setMem_iff l y).mpr hy, (setMem_iff _ y).mpr ((mem_setInsert l y x).mpr (Or.inl hy))]
  · rw [(setMem_false_iff l y).mpr hy, (setMem_false_iff _ y).mpr
      (fun hc => ((mem_setInsert l y x).mp hc).elim hy h)]

/-! ### C8 — Remove on a non-evictable frame -/

/-- C8 (confirmed): for every tracked frame `f` that is not evictable,
`Remove(f)` reports the NotEvictable error (the source throws, catches
and prints "The frame is not evictable!") and returns the state
completely unchanged, so `f` stays tracked with its access history and
`Size()` is unchanged. -/
theorem C8_remove_nonevictable_reports_unchanged (r : LRUKReplacer) (f : Nat)
    (htr : timeIdHas r.history_time_id_ f = true ∨ timeIdHas r.cache_time_id_ f = true)
    (h1 : setMem r.history_is_evictable_ f = false)
    (h2 : setMem r.cache_is_evictable_ f = false) :
    r.Remove f = (r, true) := by
  unfold LRUKReplacer.Remove
  cases he : timeIdEntry r.history_time_id_ f with
  | some e => simp [h1]
  | none =>
    cases hc : timeIdEntry r.cache_time_id_ f with
    | some e => simp [h2]
    | none =>
      exfalso
      rcases htr with h | h
      · rw [timeIdEntry_eq_filter_head] at he
        have := (timeIdHas_iff_filter _ f).mp h
        cases hf : r.history_time_id_.filter (fun p => p.2 == f) with
        | nil => exact this hf
        | cons a tl => rw [hf] at he; simp at he
      · rw [timeIdEntry_eq_filter_head] at hc
        have := (timeIdHas_iff_filter _ f).mp h
        cases hf : r.cache_time_id_.filter (fun p => p.2 == f) with
        | nil => exact this hf
        | cons a tl => rw [hf] at hc; simp at hc

/-- C8 witness: a frame is recorded (hence tracked, with the default
non-evictable flag); `Remove` reports and changes nothing. -/
theorem C8_witness :
    ((LRUKReplacer.init 2 2).RecordAccess 0).Remove 0 =
      ((LRUKReplacer.init 2 2).RecordAccess 0, true) :=
  C8_remove_nonevictable_reports_unchanged _ 0 (Or.inl (by decide))
    (by decide) (by decide)

/-! ### Replacer lemmas used by the DeletePage claim -/

theorem length_le_one_eq {α : Type} (l : List α) (h : l.length ≤ 1)
    {a b : α} (ha : a ∈ l) (hb : b ∈ l) : a = b := by
  cases l with
  | nil => cases ha
  | cons x tl =>
    cases tl with
    | nil => simp only [List.mem_singleton] at ha hb; rw [ha, hb]
    | cons y tl2 => simp at h

theorem timeIdEntry_some_mem (l : List (Nat × Nat)) (f : Nat) (e : Nat × Nat)
    (h : timeIdEntry l f = some e) : e ∈ l ∧ e.2 = f := by
  refine ⟨List.mem_of_find?_eq_some h, ?_⟩
  have := List.find?_some h
  simpa using this

theorem pairErase_has_false (l : List (Nat × Nat)) (f : Nat) (e : Nat × Nat)
    (hfil : (l.filter (fun p => p.2 == f)).length ≤ 1)
    (he : timeIdEntry l f = some e) :
    timeIdHas (pairErase l e) f = false := by
  rw [timeIdHas_false_iff]
  intro p hp hpf
  obtain ⟨hel, hef⟩ := timeIdEntry_some_mem l f e he
  have hpl : p ∈ l.filter (fun p => p.2 == f) :=
    List.mem_filter.mpr ⟨List.mem_of_mem_filter hp, by simp [hpf]⟩
  have hefl : e ∈ l.filter (fun p => p.2 == f) :=
    List.mem_filter.mpr ⟨hel, by simp [hef]⟩
  have : p = e := length_le_one_eq _ hfil hpl hefl
  have hne : p ≠ e := by
    have := List.mem_filter.mp hp
    simpa using this.2
  exact hne this

theorem removeFirst_fst_filter (l : List (Nat × Nat)) (ev : List Nat) (f : Nat)
    (hev : setMem ev f = false) :
    (removeFirstEvictable l ev).1.filter (fun p => p.2 == f) =
      l.filter (fun p => p.2 == f) := by
  induction l with
  | nil => rfl
  | cons e rest ih =>
    unfold removeFirstEvictable
    by_cases hm : setMem ev e.2 = true
    · have hne : e.2 ≠ f := fun hc => by rw [hc] at hm; rw [hm] at hev; cases hev
      simp only [hm, if_true]
      rw [List.filter_cons_of_neg (by simp [hne])]
    · rw [if_neg (by simp [hm])]
      by_cases hef : e.2 = f
      · rw [List.filter_cons_of_pos (by simp [hef]),
          List.filter_cons_of_pos (by simp [hef]), ih]
      · rw [List.filter_cons_of_neg (by simp [hef]),
          List.filter_cons_of_neg (by simp [hef]), ih]

theorem removeFirst_ev_mono (l : List (Nat × Nat)) (ev : List Nat) (f : Nat)
    (h : setMem (removeFirstEvictable l ev).2.1 f = true) : setMem ev f = true := by
  induction l with
  | nil => exact h
  | cons e rest ih =>
    unfold removeFirstEvictable at h
    by_cases hm : setMem ev e.2 = true
    · rw [if_pos hm] at h
      rw [setMem_iff] at h ⊢
      exact ((mem_setErase ev f e.2).mp h).1
    · rw [if_neg (by simp [hm])] at h
      exact ih h

theorem removeFirst_ev_false (l : List (Nat × Nat)) (ev : List Nat) (f : Nat)
    (hev : setMem ev f = false) :
    setMem (removeFirstEvictable l ev).2.1 f = false := by
  by_contra h
  rw [Bool.not_eq_false] at h
  rw [removeFirst_ev_mono l ev f h] at hev
  cases hev

/-- the fields of `SetEvictable(f, true)` relevant to a later `Remove(f)`,
when `f` is tracked in the history queue. -/
theorem setEvictable_true_hist_fields (r : LRUKReplacer) (f : Nat) (e : Nat × Nat)
    (he : timeIdEntry r.history_time_id_ f = some e) :
    ((r.SetEvictable f true).history_time_id_.filter (fun p => p.2 == f) =
       r.history_time_id_.filter (fun p => p.2 == f)) ∧
    setMem (r.SetEvictable f true).history_is_evictable_ f = true ∧
    (r.SetEvictable f true).cache_time_id_ = r.cache_time_id_ ∧
    (r.SetEvictable f true).cache_is_evictable_ = r.cache_is_evictable_ := by
  unfold LRUKReplacer.SetEvictable
  rw [he]
  by_cases hev : setMem r.history_is_evictable_ f = true
  · simp only [hev, Bool.not_true, Bool.and_false, Bool.true_and, if_false,
      Bool.not_false]
    simp [hev]
  · rw [Bool.not_eq_true] at hev
    simp only [hev, Bool.not_false, Bool.and_self, if_true, Bool.true_and]
    by_cases hlen : (r.history_is_evictable_.length == r.replacer_size_) = true
    · rw [if_pos hlen]
      split
      · refine ⟨?_, setMem_setInsert_self _ f, rfl, rfl⟩
        exact removeFirst_fst_filter _ _ f hev
      · refine ⟨?_, setMem_setInsert_self _ f, rfl, rfl⟩
        exact removeFirst_fst_filter _ _ f hev
    · rw [if_neg hlen]
      exact ⟨rfl, setMem_setInsert_self _ f, rfl, rfl⟩

/-- the analogue when `f` is tracked in the cache queue only. -/
theorem setEvictable_true_cache_fields (r : LRUKReplacer) (f : Nat) (e : Nat × Nat)
    (hh : timeIdEntry r.history_time_id_ f = none)
    (he : timeIdEntry r.cache_time_id_ f = some e) :
    ((r.SetEvictable f true).cache_time_id_.filter (fun p => p.2 == f) =
       r.cache_time_id_.filter (fun p => p.2 == f)) ∧
    setMem (r.SetEvictable f true).cache_is_evictable_ f = true ∧
    (r.SetEvictable f true).history_time_id_ = r.history_time_id_ ∧
    (r.SetEvictable f true).history_is_evictable_ = r.history_is_evictable_ := by
  unfold LRUKReplacer.SetEvictable
  rw [hh, he]
  by_cases hev : setMem r.cache_is_evictable_ f = true
  · simp [hev]
  · rw [Bool.not_eq_true] at hev
    simp only [hev, Bool.not_false, Bool.and_self, if_true, Bool.true_and]
    by_cases hlen : (r.cache_is_evictable_.length == r.replacer_size_) = true
    · rw [if_pos hlen]
      refine ⟨?_, setMem_setInsert_self _ f, rfl, rfl⟩
      exact removeFirst_fst_filter _ _ f hev
    · rw [if_neg hlen]
      exact ⟨rfl, setMem_setInsert_self _ f, rfl, rfl⟩

/-- `SetEvictable` is the identity on a frame it does not track. -/
theorem setEvictable_untracked (r : LRUKReplacer) (f : Nat) (b : Bool)
    (hh : timeIdEntry r.history_time_id_ f = none)
    (hc : timeIdEntry r.cache_time_id_ f = none) :
    r.SetEvictable f b = r := by
  unfold LRUKReplacer.SetEvictable
  rw [hh, hc]

/-- after `SetEvictable(f, true); Remove(f)` the frame is gone from both
queues and both evictable sets, provided each queue holds at most one
entry for `f`, `f` is not in both queues, and the evictable sets only
mention tracked frames (all true in every reachable state). -/
theorem setEvictable_remove_untracks (r : LRUKReplacer) (f : Nat)
    (hfh : (r.history_time_id_.filter (fun p => p.2 == f)).length ≤ 1)
    (hfc : (r.cache_time_id_.filter (fun p => p.2 == f)).length ≤ 1)
    (hx : ¬(timeIdHas r.history_time_id_ f = true ∧ timeIdHas r.cache_time_id_ f = true))
    (hevh : setMem r.history_is_evictable_ f = true → timeIdHas r.history_time_id_ f = true)
    (hevc : setMem r.cache_is_evictable_ f = true → timeIdHas r.cache_time_id_ f = true) :
    frameUntracked ((r.SetEvictable f true).Remove f).1 f := by
  by_cases hh : timeIdHas r.history_time_id_ f = true
  · -- tracked in the history queue (and hence not in the cache queue)
    have hcache : timeIdHas r.cache_time_id_ f = false := by
      by_contra hcc
      rw [Bool.not_eq_false] at hcc
      exact hx ⟨hh, hcc⟩
    have hcev : setMem r.cache_is_evictable_ f = false := by
      by_contra hcc
      rw [Bool.not_eq_false] at hcc
      rw [hevc hcc] at hcache
      cases hcache
    obtain ⟨e, he⟩ : ∃ e, timeIdEntry r.history_time_id_ f = some e := by
      rw [timeIdEntry_eq_filter_head]
      cases hf : r.history_time_id_.filter (fun p => p.2 == f) with
      | nil => exact absurd hf ((timeIdHas_iff_filter _ f).mp hh)
      | cons a tl => exact ⟨a, rfl⟩
    obtain ⟨hfil, hmem, hct, hcev2⟩ := setEvictable_true_hist_fields r f e he
    set rS := r.SetEvictable f true with hrS
    have heS : timeIdEntry rS.history_time_id_ f = some e := by
      rw [timeIdEntry_eq_filter_head, hfil, ← timeIdEntry_eq_filter_head]
      exact he
    have hfilS : (rS.history_time_id_.filter (fun p => p.2 == f)).length ≤ 1 := by
      rw [hfil]; exact hfh
    unfold LRUKReplacer.Remove
    rw [heS, hmem]
    simp only [Bool.not_true, if_false, Bool.not_false]
    refine ⟨?_, ?_, ?_, ?_⟩
    · exact pairErase_has_false _ f e hfilS heS
    · rw [hct]; exact hcache
    · exact setMem_setErase_self _ f
    · rw [hcev2]; exact hcev
  · rw [Bool.not_eq_true] at hh
    have hhe : timeIdEntry r.history_time_id_ f = none :=
      timeIdEntry_none_of_has_false _ f hh
    have hhev : setMem r.history_is_evictable_ f = false := by
      by_contra hcc
      rw [Bool.not_eq_false] at hcc
      rw [hevh hcc] at hh
      cases hh
    by_cases hc : timeIdHas r.cache_time_id_ f = true
    · -- tracked in the cache queue only
      obtain ⟨e, he⟩ : ∃ e, timeIdEntry r.cache_time_id_ f = some e := by
        rw [timeIdEntry_eq_filter_head]
        cases hf : r.cache_time_id_.filter (fun p => p.2 == f) with
        | nil => exact absurd hf ((timeIdHas_iff_filter _ f).mp hc)
        | cons a tl => exact ⟨a, rfl⟩
      obtain ⟨hfil, hmem, hht, hhev2⟩ := setEvictable_true_cache_fields r f e hhe he
      set rS := r.SetEvictable f true with hrS
      have hheS : timeIdEntry rS.history_time_id_ f = none := by
        rw [hht]; exact hhe
      have heS : timeIdEntry rS.cache_time_id_ f = some e := by
        rw [timeIdEntry_eq_filter_head, hfil, ← timeIdEntry_eq_filter_head]
        exact he
      have hfilS : (rS.cache_time_id_.filter (fun p => p.2 == f)).length ≤ 1 := by
        rw [hfil]; exact hfc
      unfold LRUKReplacer.Remove
      rw [hheS, heS, hmem]
      simp only [Bool.not_true, if_false, Bool.not_false]
      refine ⟨?_, ?_, ?_, ?_⟩
      · rw [hht]; exact hh
      · exact pairErase_has_false _ f e hfilS heS
      · rw [hhev2]; exact hhev
      · exact setMem_setErase_self _ f
    · -- untracked everywhere: both calls are no-ops
      rw [Bool.not_eq_true] at hc
      have hce : timeIdEntry r.cache_time_id_ f = none :=
        timeIdEntry_none_of_has_false _ f hc
      have hcev : setMem r.cache_is_evictable_ f = false := by
        by_contra hcc
        rw [Bool.not_eq_false] at hcc
        rw [hevc hcc] at hc
        cases hc
      rw [setEvictable_untracked r f true hhe hce]
      unfold LRUKReplacer.Remove
      rw [hhe, hce]
      exact ⟨hh, hc, hhev, hcev⟩

/-! ### C7 — DeletePage -/

/-- C7 (counterexample): for `p = INVALID_PAGE_ID` (which is never
resident) the claim requires `DeletePage(p) = true` (vacuous delete), but
the source returns `false` before consulting the page table. -/
theorem C7_delete_invalid_returns_false :
    ptFind (BufferPoolManagerInstance.init 1 2).page_table_ INVALID_PAGE_ID = none ∧
    ((BufferPoolManagerInstance.init 1 2).DeletePgImp INVALID_PAGE_ID).1 = false := by
  decide

/-- C7 (amended): `DeletePage(INVALID_PAGE_ID)` returns `false`; for
every other page id, a non-resident page is vacuously deleted (`true`,
state unchanged), a pinned resident page is refused (`false`, state
unchanged), and otherwise the page is removed from the page table, the
frame is appended to the free list, the frame is removed from the
replacer (`SetEvictable(f,true)` then `Remove(f)`; the final replacer
hypotheses hold in every reachable state), and the frame's page id,
dirty flag and data are reset. -/
theorem C7_deletePage_amended (s : BufferPoolManagerInstance) (pid : Int) :
    (pid = INVALID_PAGE_ID → s.DeletePgImp pid = (false, s)) ∧
    (pid ≠ INVALID_PAGE_ID → ptFind s.page_table_ pid = none →
      s.DeletePgImp pid = (true, s)) ∧
    (∀ f, pid ≠ INVALID_PAGE_ID → ptFind s.page_table_ pid = some f →
      0 < (s.pageAt f).pin_count_ → s.DeletePgImp pid = (false, s)) ∧
    (∀ f, pid ≠ INVALID_PAGE_ID → ptFind s.page_table_ pid = some f →
      (s.pageAt f).pin_count_ = 0 →
      (s.DeletePgImp pid).1 = true ∧
      (s.DeletePgImp pid).2.page_table_ = ptRemove s.page_table_ pid ∧
      (s.DeletePgImp pid).2.free_list_ = s.free_list_ ++ [f] ∧
      (f < s.pages_.length →
        (s.DeletePgImp pid).2.pageAt f = Page.empty) ∧
      ((s.replacer_.history_time_id_.filter (fun p => p.2 == f)).length ≤ 1 →
       (s.replacer_.cache_time_id_.filter (fun p => p.2 == f)).length ≤ 1 →
       ¬(timeIdHas s.replacer_.history_time_id_ f = true ∧
         timeIdHas s.replacer_.cache_time_id_ f = true) →
       (setMem s.replacer_.history_is_evictable_ f = true →
         timeIdHas s.replacer_.history_time_id_ f = true) →
       (setMem s.replacer_.cache_is_evictable_ f = true →
         timeIdHas s.replacer_.cache_time_id_ f = true) →
       frameUntracked (s.DeletePgImp pid).2.replacer_ f)) := by
  refine ⟨?_, ?_, ?_, ?_⟩
  · intro h
    simp [BufferPoolManagerInstance.DeletePgImp, h]
  · intro h hfind
    simp [BufferPoolManagerInstance.DeletePgImp, h, hfind]
  · intro f h hfind hpin
    simp [BufferPoolManagerInstance.DeletePgImp, h, hfind, hpin]
  · intro f h hfind hpin
    have hbeq : (pid == INVALID_PAGE_ID) = false := by simp [h]
    simp only [BufferPoolManagerInstance.DeletePgImp, hbeq, Bool.false_eq_true,
      if_false, hfind]
    rw [if_neg (by simp [hpin])]
    simp only [BufferPoolManagerInstance.setPage, BufferPoolManagerInstance.pageAt]
    refine ⟨trivial, trivial, trivial, ?_, ?_⟩
    · intro hlt
      rw [getD_set_self _ _ _ _ hlt]
      have h0 : (s.pages_.getD f Page.empty).pin_count_ = 0 := hpin
      rw [h0]
      rfl
    · intro h1 h2 h3 h4 h5
      exact setEvictable_remove_untracks s.replacer_ f h1 h2 h3 h4 h5

/-- C7 witness: deleting the resident, unpinned page 1 of `c2state`
succeeds and removes frame 0 from the replacer. -/
theorem C7_witness :
    (c2state.DeletePgImp 1).1 = true ∧
    (c2state.DeletePgImp 1).2.free_list_ = c2state.free_list_ ++ [0] ∧
    frameUntracked (c2state.DeletePgImp 1).2.replacer_ 0 := by
  obtain ⟨-, -, -, h4⟩ := C7_deletePage_amended c2state 1
  obtain ⟨ha, hb, hc, hd, he⟩ := h4 0 (by decide) (by decide) (by decide)
  exact ⟨ha, hc, he (by decide) (by decide) (by decide) (by decide) (by decide)⟩

/-! ### C6 — FetchPage -/

theorem ptFind_ptInsert_self (l : List (Int × Nat)) (pid : Int) (f : Nat) :
    ptFind (ptInsert l pid f) pid = some f := by
  induction l with
  | nil => simp [ptInsert, ptFind]
  | cons p rest ih =>
    unfold ptInsert
    by_cases hp : p.1 = pid
    · simp [hp, ptFind]
    · rw [if_neg (by simp [hp])]
      unfold ptFind at ih ⊢
      simp only [List.find?]
      rw [show (p.1 == pid) = false by simp [hp]]
      exact ih

theorem acquireFrame_cons (s : BufferPoolManagerInstance) (f : Nat) (rest : List Nat)
    (h : s.free_list_ = f :: rest) :
    s.acquireFrame = some (f, { s with free_list_ := rest }) := by
  unfold BufferPoolManagerInstance.acquireFrame
  rw [h]

theorem acquireFrame_evict (s : BufferPoolManagerInstance)
    (h : s.free_list_ = []) (q : Nat × LRUKReplacer)
    (he : s.replacer_.Evict = some q) :
    s.acquireFrame = some (q.1, { s with replacer_ := q.2 }) := by
  unfold BufferPoolManagerInstance.acquireFrame
  rw [h, he]

theorem evictWriteback_pages_length (s : BufferPoolManagerInstance) (f : Nat) :
    (s.evictWriteback f).pages_.length = s.pages_.length := by
  unfold BufferPoolManagerInstance.evictWriteback
  split <;> simp

/-- C6 (counterexample): `FetchPgImp(INVALID_PAGE_ID)` on a fresh pool
returns `None` although the free list is non-empty, refuting "returns
None only when the free list is empty and the replacer has no evictable
frame". -/
theorem C6_fetch_invalid_fails_with_free_frames :
    ((BufferPoolManagerInstance.init 1 2).FetchPgImp INVALID_PAGE_ID).1 = none ∧
    (BufferPoolManagerInstance.init 1 2).free_list_ = [0] := by
  decide

/-- C6 (amended): `FetchPage(page_id)` returns `None` exactly when
`page_id = INVALID_PAGE_ID` or the page is not resident while the free
list is empty and the replacer holds no evictable frame (the hypothesis
`hrep`, true in every reachable state, says a replacer reporting a
non-zero size can produce a victim).  When the page is resident its pin
count is incremented and its frame returned; otherwise a frame is
acquired, the page's bytes are read from disk into it, its pin count is
set to 1 and the page table updated. -/
theorem C6_fetchPage_amended (s : BufferPoolManagerInstance) (pid : Int)
    (hrep : s.replacer_.Size ≠ 0 → (s.replacer_.Evict).isSome = true) :
    ((s.FetchPgImp pid).1 = none ↔
      pid = INVALID_PAGE_ID ∨
      (ptFind s.page_table_ pid = none ∧ s.free_list_ = [] ∧ s.replacer_.Size = 0)) ∧
    (∀ f, ptFind s.page_table_ pid = some f → pid ≠ INVALID_PAGE_ID →
      (s.FetchPgImp pid).1 = some f ∧
      (f < s.pages_.length →
        ((s.FetchPgImp pid).2.pageAt f).pin_count_ = (s.pageAt f).pin_count_ + 1)) ∧
    (∀ f, ptFind s.page_table_ pid = none → pid ≠ INVALID_PAGE_ID →
      (s.FetchPgImp pid).1 = some f → f < s.pages_.length →
      ((s.FetchPgImp pid).2.pageAt f).pin_count_ = 1 ∧
      ((s.FetchPgImp pid).2.pageAt f).page_id_ = pid ∧
      ((s.FetchPgImp pid).2.pageAt f).data_ =
        diskRead (s.FetchPgImp pid).2.disk_ pid ∧
      ptFind (s.FetchPgImp pid).2.page_table_ pid = some f) := by
  refine ⟨?_, ?_, ?_⟩
  · by_cases hpid : pid = INVALID_PAGE_ID
    · simp [BufferPoolManagerInstance.FetchPgImp, hpid]
    · have hbeq : (pid == INVALID_PAGE_ID) = false := by simp [hpid]
      cases hfind : ptFind s.page_table_ pid with
      | some f =>
          simp [BufferPoolManagerInstance.FetchPgImp, hbeq, hfind, hpid]
      | none =>
          cases hfree : s.free_list_ with
          | cons f0 rest =>
              have hacq := acquireFrame_cons s f0 rest hfree
              simp [BufferPoolManagerInstance.FetchPgImp, hbeq, hfind, hpid,
                hfree, hacq]
          | nil =>
              by_cases hsz : s.replacer_.Size = 0
              · simp [BufferPoolManagerInstance.FetchPgImp, hbeq, hfind, hpid,
                  hfree, hsz]
              · obtain ⟨q, hq⟩ := Option.isSome_iff_exists.mp (hrep hsz)
                have hacq := acquireFrame_evict s hfree q hq
                simp [BufferPoolManagerInstance.FetchPgImp, hbeq, hfind, hpid,
                  hfree, hsz, hacq]
  · intro f hfind hpid
    have hbeq : (pid == INVALID_PAGE_ID) = false := by simp [hpid]
    simp only [BufferPoolManagerInstance.FetchPgImp, hbeq, Bool.false_eq_true,
      if_false, hfind]
    refine ⟨trivial, ?_⟩
    intro hlt
    simp only [BufferPoolManagerInstance.pageAt, BufferPoolManagerInstance.setPage]
    rw [getD_set_self _ _ _ _ hlt]
  · intro f hfind hpid hres hlt
    have hbeq : (pid == INVALID_PAGE_ID) = false := by simp [hpid]
    simp only [BufferPoolManagerInstance.FetchPgImp, hbeq, Bool.false_eq_true,
      if_false, hfind] at hres ⊢
    cases hfree : s.free_list_ with
    | cons f0 rest =>
        have hacq := acquireFrame_cons s f0 rest hfree
        simp only [hfree, List.isEmpty_cons, Bool.false_and, Bool.false_eq_true,
          if_false, hacq] at hres ⊢
        have hf : f0 = f := by simpa using hres
        subst hf
        refine ⟨?_, ?_, ?_, ptFind_ptInsert_self _ _ _⟩ <;>
          · simp only [BufferPoolManagerInstance.pageAt, BufferPoolManagerInstance.setPage]
            rw [getD_set_self _ _ _ _
              (by rw [evictWriteback_pages_length]; simpa using hlt)]
    | nil =>
        by_cases hsz : s.replacer_.Size = 0
        · simp [hfree, hsz] at hres
        · obtain ⟨q, hq⟩ := Option.isSome_iff_exists.mp (hrep hsz)
          have hacq := acquireFrame_evict s hfree q hq
          simp only [hfree, List.isEmpty_nil, Bool.true_and, beq_iff_eq, hsz,
            if_false, hacq] at hres ⊢
          have hf : q.1 = f := by simpa using hres
          subst hf
          refine ⟨?_, ?_, ?_, ptFind_ptInsert_self _ _ _⟩ <;>
            · simp only [BufferPoolManagerInstance.pageAt, BufferPoolManagerInstance.setPage]
              rw [getD_set_self _ _ _ _
                (by rw [evictWriteback_pages_length]; simpa using hlt)]

/-- C6 witness: fetching non-resident page 5 on a fresh one-frame pool
acquires frame 0 from the free list and pins it to 1. -/
theorem C6_witness :
    ((BufferPoolManagerInstance.init 1 2).FetchPgImp 5).1 = some 0 ∧
    (((BufferPoolManagerInstance.init 1 2).FetchPgImp 5).2.pageAt 0).pin_count_ = 1 ∧
    ptFind ((BufferPoolManagerInstance.init 1 2).FetchPgImp 5).2.page_table_ 5 = some 0 := by
  obtain ⟨-, -, h3⟩ :=
    C6_fetchPage_amended (BufferPoolManagerInstance.init 1 2) 5 (by decide)
  have h := h3 0 (by decide) (by decide) (by decide) (by decide)
  exact ⟨by decide, h.1, h.2.2.2⟩

/-! ### C10 — newly recorded frames are not evictable -/

theorem removeFirst_some_mem (l : List (Nat × Nat)) (ev : List Nat) (id : Nat)
    (h : (removeFirstEvictable l ev).2.2 = some id) : setMem ev id = true := by
  induction l with
  | nil => cases h
  | cons e rest ih =>
    unfold removeFirstEvictable at h
    by_cases hm : setMem ev e.2 = true
    · rw [if_pos hm] at h
      cases h
      exact hm
    · rw [if_neg (by simp [hm])] at h
      exact ih h

theorem evict_returns_evictable (r : LRUKReplacer) (q : Nat × LRUKReplacer)
    (h : r.Evict = some q) :
    setMem r.history_is_evictable_ q.1 = true ∨
    setMem r.cache_is_evictable_ q.1 = true := by
  unfold LRUKReplacer.Evict at h
  by_cases hsz : (r.Size == 0) = true
  · rw [if_pos hsz] at h; cases h
  · rw [if_neg hsz] at h
    rcases hh : removeFirstEvictable r.history_time_id_ r.history_is_evictable_ with
      ⟨l1, ev1, o1⟩
    rw [hh] at h
    cases o1 with
    | some id =>
        cases h
        exact Or.inl (removeFirst_some_mem _ _ _ (by rw [hh]))
    | none =>
        rcases hc : removeFirstEvictable r.cache_time_id_ r.cache_is_evictable_ with
          ⟨l2, ev2, o2⟩
        rw [hc] at h
        cases o2 with
        | some id =>
            cases h
            exact Or.inr (removeFirst_some_mem _ _ _ (by rw [hc]))
        | none => cases h

theorem recordAccess_preserves_nonEvictable (r : LRUKReplacer) (f g : Nat)
    (h : frameNonEvictable r f) : frameNonEvictable (r.RecordAccess g) f := by
  obtain ⟨h1, h2⟩ := h
  unfold LRUKReplacer.RecordAccess
  cases timeIdEntry r.cache_time_id_ g with
  | some e => exact ⟨h1, h2⟩
  | none =>
    cases timeIdEntry r.history_time_id_ g with
    | none => exact ⟨h1, h2⟩
    | some e =>
      dsimp only
      by_cases hk : (assocGetD r.history_cnt_ g 0 + 1 == r.k_) = true
      · rw [if_pos hk]
        by_cases hgf : g = f
        · subst hgf
          rw [h1]
          simp only [Bool.false_eq_true, if_false]
          exact ⟨h1, h2⟩
        · by_cases hev : setMem r.history_is_evictable_ g = true
          · rw [hev]
            simp only [if_true]
            constructor
            · split
              · rw [setMem_setErase_ne _ _ _ (fun hc => hgf hc.symm)]
                exact h1
              · rw [setMem_setErase_ne _ _ _ (fun hc => hgf hc.symm)]
                exact h1
            · split
              · rw [setMem_setInsert_ne _ _ _ (fun hc => hgf hc.symm)]
                exact removeFirst_ev_false _ _ _ h2
              · rw [setMem_setInsert_ne _ _ _ (fun hc => hgf hc.symm)]
                exact h2
          · rw [Bool.not_eq_true] at hev
            rw [hev]
            simp only [Bool.false_eq_true, if_false]
            exact ⟨h1, h2⟩
      · rw [if_neg hk]
        exact ⟨h1, h2⟩

theorem setEvictable_preserves_nonEvictable (r : LRUKReplacer) (f g : Nat) (b : Bool)
    (h : frameNonEvictable r f) (hne : ¬(g = f ∧ b = true)) :
    frameNonEvictable (r.SetEvictable g b) f := by
  obtain ⟨h1, h2⟩ := h
  have hgf : b = true → g ≠ f := fun hb hgf => hne ⟨hgf, hb⟩
  unfold LRUKReplacer.SetEvictable
  cases timeIdEntry r.history_time_id_ g with
  | some e =>
    by_cases hb : b = true
    · have hg : g ≠ f := hgf hb
      subst hb
      by_cases hev : setMem r.history_is_evictable_ g = true
      · simp only [hev, Bool.not_true, Bool.and_false, Bool.false_eq_true, if_false,
          Bool.not_true]
        exact ⟨h1, h2⟩
      · rw [Bool.not_eq_true] at hev
        simp only [hev, Bool.not_false, Bool.and_true, if_true]
        constructor
        · rw [setMem_setInsert_ne _ _ _ (fun hc => hg hc.symm)]
          split
          · split
            · exact removeFirst_ev_false _ _ _ h1
            · exact removeFirst_ev_false _ _ _ h1
          · exact h1
        · split
          · split
            · exact h2
            · exact h2
          · exact h2
    · rw [Bool.not_eq_true] at hb
      subst hb
      simp only [Bool.false_and, Bool.false_eq_true, if_false, Bool.not_false, if_true]
      refine ⟨?_, h2⟩
      by_cases hgf2 : f = g
      · subst hgf2
        exact setMem_setErase_self _ f
      · rw [setMem_setErase_ne _ _ _ hgf2]
        exact h1
  | none =>
    cases timeIdEntry r.cache_time_id_ g with
    | none => exact ⟨h1, h2⟩
    | some e =>
      by_cases hb : b = true
      · have hg : g ≠ f := hgf hb
        subst hb
        by_cases hev : setMem r.cache_is_evictable_ g = true
        · simp only [hev, Bool.not_true, Bool.and_false, Bool.false_eq_true, if_false,
            Bool.not_true]
          exact ⟨h1, h2⟩
        · rw [Bool.not_eq_true] at hev
          simp only [hev, Bool.not_false, Bool.and_true, if_true]
          refine ⟨?_, ?_⟩
          · split
            · exact h1
            · exact h1
          · rw [setMem_setInsert_ne _ _ _ (fun hc => hg hc.symm)]
            split
            · exact removeFirst_ev_false _ _ _ h2
            · exact h2
      · rw [Bool.not_eq_true] at hb
        subst hb
        simp only [Bool.false_and, Bool.false_eq_true, if_false, Bool.not_false, if_true]
        refine ⟨h1, ?_⟩
        by_cases hgf2 : f = g
        · subst hgf2
          exact setMem_setErase_self _ f
        · rw [setMem_setErase_ne _ _ _ hgf2]
          exact h2

theorem remove_preserves_nonEvictable (r : LRUKReplacer) (f g : Nat)
    (h : frameNonEvictable r f) : frameNonEvictable (r.Remove g).1 f := by
  obtain ⟨h1, h2⟩ := h
  unfold LRUKReplacer.Remove
  cases timeIdEntry r.history_time_id_ g with
  | some e =>
    by_cases hev : setMem r.history_is_evictable_ g = true
    · simp only [hev, Bool.not_true, Bool.false_eq_true, if_false]
      refine ⟨?_, h2⟩
      by_cases hgf : f = g
      · subst hgf; exact setMem_setErase_self _ f
      · rw [setMem_setErase_ne _ _ _ hgf]; exact h1
    · rw [Bool.not_eq_true] at hev
      simp only [hev, Bool.not_false, if_true]
      exact ⟨h1, h2⟩
  | none =>
    cases timeIdEntry r.cache_time_id_ g with
    | none => exact ⟨h1, h2⟩
    | some e =>
      by_cases hev : setMem r.cache_is_evictable_ g = true
      · simp only [hev, Bool.not_true, Bool.false_eq_true, if_false]
        refine ⟨h1, ?_⟩
        by_cases hgf : f = g
        · subst hgf; exact setMem_setErase_self _ f
        · rw [setMem_setErase_ne _ _ _ hgf]; exact h2
      · rw [Bool.not_eq_true] at hev
        simp only [hev, Bool.not_false, if_true]
        exact ⟨h1, h2⟩

theorem evict_preserves_nonEvictable (r : LRUKReplacer) (f : Nat)
    (h : frameNonEvictable r f) :
    frameNonEvictable (applyOp r ReplacerOp.evict) f := by
  obtain ⟨h1, h2⟩ := h
  unfold applyOp
  cases he : r.Evict with
  | none => exact ⟨h1, h2⟩
  | some q =>
    unfold LRUKReplacer.Evict at he
    by_cases hsz : (r.Size == 0) = true
    · rw [if_pos hsz] at he; cases he
    · rw [if_neg hsz] at he
      rcases hh : removeFirstEvictable r.history_time_id_ r.history_is_evictable_ with
        ⟨l1, ev1, o1⟩
      rw [hh] at he
      cases o1 with
      | some id =>
          cases he
          refine ⟨?_, h2⟩
          have : ev1 = (removeFirstEvictable r.history_time_id_ r.history_is_evictable_).2.1 := by
            rw [hh]
          rw [this]
          exact removeFirst_ev_false _ _ _ h1
      | none =>
          rcases hc : removeFirstEvictable r.cache_time_id_ r.cache_is_evictable_ with
            ⟨l2, ev2, o2⟩
          rw [hc] at he
          cases o2 with
          | some id =>
              cases he
              refine ⟨h1, ?_⟩
              have : ev2 = (removeFirstEvictable r.cache_time_id_ r.cache_is_evictable_).2.1 := by
                rw [hc]
              rw [this]
              exact removeFirst_ev_false _ _ _ h2
          | none => cases he

theorem applyOp_preserves_nonEvictable (r : LRUKReplacer) (f : Nat)
    (op : ReplacerOp) (h : frameNonEvictable r f)
    (hop : op ≠ ReplacerOp.setEvictable f true) :
    frameNonEvictable (applyOp r op) f := by
  cases op with
  | record g => exact recordAccess_preserves_nonEvictable r f g h
  | setEvictable g b =>
      refine setEvictable_preserves_nonEvictable r f g b h ?_
      rintro ⟨rfl, rfl⟩
      exact hop rfl
  | remove g => exact remove_preserves_nonEvictable r f g h
  | evict => exact evict_preserves_nonEvictable r f h

theorem applyOps_preserves_nonEvictable (f : Nat) (ops : List ReplacerOp)
    (r : LRUKReplacer) (h : frameNonEvictable r f)
    (hops : ∀ op ∈ ops, op ≠ ReplacerOp.setEvictable f true) :
    frameNonEvictable (applyOps r ops) f := by
  induction ops generalizing r with
  | nil => exact h
  | cons op rest ih =>
      exact ih (applyOp r op)
        (applyOp_preserves_nonEvictable r f op h (hops op (by simp)))
        (fun o ho => hops o (by simp [ho]))

/-- C10 (confirmed): recording an untracked frame `f` inserts it
non-evictable: `Size()` is unchanged, `f` is in neither evictable set,
and along any subsequent operation sequence that never calls
`SetEvictable(f, true)`, `f` stays non-evictable and no `Evict` call can
return `f`. -/
theorem C10_recorded_frame_not_evictable (r : LRUKReplacer) (f : Nat)
    (h1 : timeIdHas r.history_time_id_ f = false)
    (h2 : timeIdHas r.cache_time_id_ f = false)
    (h3 : setMem r.history_is_evictable_ f = false)
    (h4 : setMem r.cache_is_evictable_ f = false) :
    (r.RecordAccess f).Size = r.Size ∧
    frameNonEvictable (r.RecordAccess f) f ∧
    (∀ ops : List ReplacerOp,
      (∀ op ∈ ops, op ≠ ReplacerOp.setEvictable f true) →
      frameNonEvictable (applyOps (r.RecordAccess f) ops) f ∧
      (∀ q, (applyOps (r.RecordAccess f) ops).Evict = some q → q.1 ≠ f)) := by
  have hce := timeIdEntry_none_of_has_false _ f h2
  have hhe := timeIdEntry_none_of_has_false _ f h1
  have hnew : r.RecordAccess f = { r with
      history_cnt_ := assocSet r.history_cnt_ f 1,
      history_time_id_ := ordInsert r.history_time_id_ (r.current_timestamp_, f),
      current_timestamp_ := r.current_timestamp_ + 1 } := by
    unfold LRUKReplacer.RecordAccess
    rw [hce, hhe]
  have hne : frameNonEvictable (r.RecordAccess f) f := by
    rw [hnew]; exact ⟨h3, h4⟩
  refine ⟨?_, hne, ?_⟩
  · rw [hnew]; rfl
  · intro ops hops
    have hpres := applyOps_preserves_nonEvictable f ops _ hne hops
    refine ⟨hpres, ?_⟩
    intro q hq hqf
    rcases evict_returns_evictable _ q hq with hm | hm
    · rw [hqf, hpres.1] at hm; cases hm
    · rw [hqf, hpres.2] at hm; cases hm

/-- C10 witness: on a fresh replacer, record frame 0 (untracked); after
recording frame 1 and making only frame 1 evictable, eviction returns a
victim different from 0, and frame 0's insertion left `Size()` at 0. -/
theorem C10_witness :
    ((LRUKReplacer.init 2 2).RecordAccess 0).Size = (LRUKReplacer.init 2 2).Size ∧
    ∀ q, (applyOps ((LRUKReplacer.init 2 2).RecordAccess 0)
        [ReplacerOp.record 1, ReplacerOp.setEvictable 1 true]).Evict = some q →
      q.1 ≠ 0 := by
  obtain ⟨hA, -, hC⟩ :=
    C10_recorded_frame_not_evictable (LRUKReplacer.init 2 2) 0
      (by decide) (by decide) (by decide) (by decide)
  exact ⟨hA, (hC [ReplacerOp.record 1, ReplacerOp.setEvictable 1 true]
    (by decide)).2⟩

/-! ### C1 — history-set victim selection -/

/-- C1 (counterexample): with K = 3 and accesses 1, 2, 1 (counts stay
below K), both frames are evictable history frames; frame 1's earliest
access (timestamp 0) precedes frame 2's (timestamp 1), yet `Evict`
returns frame 2 — a re-access below K re-keys the frame, so selection is
not by first-access time as the claim states. -/
theorem C1_evict_not_by_first_access :
    firstAccessTime [1, 2, 1] 1 = some 0 ∧
    firstAccessTime [1, 2, 1] 2 = some 1 ∧
    timeIdHas c1state.history_time_id_ 1 = true ∧
    timeIdHas c1state.history_time_id_ 2 = true ∧
    setMem c1state.history_is_evictable_ 1 = true ∧
    setMem c1state.history_is_evictable_ 2 = true ∧
    assocGetD c1state.history_cnt_ 1 0 = 2 ∧
    assocGetD c1state.history_cnt_ 2 0 = 1 ∧
    c1state.k_ = 3 ∧
    (c1state.Evict).map Prod.fst = some 2 := by
  decide

theorem removeFirst_min (l : List (Nat × Nat)) (ev : List Nat)
    (hsort : l.Pairwise (fun a b => a.1 ≤ b.1))
    (e : Nat × Nat) (he : e ∈ l) (hev : setMem ev e.2 = true) :
    ∃ e0 : Nat × Nat, e0 ∈ l ∧ setMem ev e0.2 = true ∧
      (removeFirstEvictable l ev).2.2 = some e0.2 ∧
      ∀ e1 ∈ l, setMem ev e1.2 = true → e0.1 ≤ e1.1 := by
  induction l with
  | nil => cases he
  | cons a rest ih =>
    by_cases hm : setMem ev a.2 = true
    · refine ⟨a, by simp, hm, ?_, ?_⟩
      · unfold removeFirstEvictable
        rw [if_pos hm]
      · intro e1 he1 hev1
        rcases List.mem_cons.mp he1 with rfl | h1
        · exact le_refl _
        · exact (List.pairwise_cons.mp hsort).1 e1 h1
    · have hrest : e ∈ rest := by
        rcases List.mem_cons.mp he with rfl | h1
        · rw [hev] at hm; exact absurd rfl hm
        · exact h1
      obtain ⟨e0, h0mem, h0ev, h0eq, h0min⟩ :=
        ih (List.pairwise_cons.mp hsort).2 hrest
      refine ⟨e0, List.mem_cons_of_mem a h0mem, h0ev, ?_, ?_⟩
      · unfold removeFirstEvictable
        rw [if_neg (by simp [hm])]
        exact h0eq
      · intro e1 he1 hev1
        rcases List.mem_cons.mp he1 with rfl | h1
        · rw [hev1] at hm; exact absurd rfl hm
        · exact h0min e1 h1 hev1

/-- C1 (amended): whenever some evictable frame is in the history set,
`Evict` selects the evictable history frame whose *recorded* timestamp —
the timestamp of its most recent access, since a re-access below K
re-keys the frame — is smallest.  The sortedness hypothesis states the
history index is in `std::set` order, true in every reachable state. -/
theorem C1_evict_min_recorded_history_timestamp (r : LRUKReplacer)
    (hsort : r.history_time_id_.Pairwise (fun a b => a.1 ≤ b.1))
    (e : Nat × Nat) (he : e ∈ r.history_time_id_)
    (hev : setMem r.history_is_evictable_ e.2 = true) :
    ∃ e0 : Nat × Nat, e0 ∈ r.history_time_id_ ∧
      setMem r.history_is_evictable_ e0.2 = true ∧
      (r.Evict).map Prod.fst = some e0.2 ∧
      ∀ e1 ∈ r.history_time_id_, setMem r.history_is_evictable_ e1.2 = true →
        e0.1 ≤ e1.1 := by
  obtain ⟨e0, h0mem, h0ev, h0eq, h0min⟩ := removeFirst_min _ _ hsort e he hev
  refine ⟨e0, h0mem, h0ev, ?_, h0min⟩
  have hmem0 : e0.2 ∈ r.history_is_evictable_ := (setMem_iff _ _).mp h0ev
  have hlen : 0 < r.history_is_evictable_.length :=
    List.length_pos.mpr (List.ne_nil_of_mem hmem0)
  have hsz : (r.Size == 0) = false := by
    simp only [LRUKReplacer.Size, beq_eq_false_iff_ne, Ne]
    omega
  unfold LRUKReplacer.Evict
  rw [hsz]
  simp only [Bool.false_eq_true, if_false]
  rcases hq : removeFirstEvictable r.history_time_id_ r.history_is_evictable_ with
    ⟨l1, ev1, o1⟩
  rw [hq] at h0eq
  simp only at h0eq
  rw [h0eq]
  rfl

/-- C1 witness: the amended theorem applied to the spec's seed scenario
(K = 2, frames 2, 3, 4 in the history set at timestamps 1, 2, 3). -/
theorem C1_witness :
    ∃ e0 : Nat × Nat, e0 ∈ c1wstate.history_time_id_ ∧
      setMem c1wstate.history_is_evictable_ e0.2 = true ∧
      (c1wstate.Evict).map Prod.fst = some e0.2 ∧
      ∀ e1 ∈ c1wstate.history_time_id_,
        setMem c1wstate.history_is_evictable_ e1.2 = true → e0.1 ≤ e1.1 :=
  C1_evict_min_recorded_history_timestamp c1wstate (by decide) (1, 2)
    (by decide) (by decide)

/-! ### C5 — insert/find round trip: basic lemmas -/

theorem mod_pow_mod (a d g : Nat) (h : d ≤ g) : a % 2 ^ g % 2 ^ d = a % 2 ^ d :=
  Nat.mod_mod_of_dvd a (pow_dvd_pow 2 h)

theorem getD_append_left {α : Type} (l1 l2 : List α) (j : Nat) (d : α)
    (h : j < l1.length) : (l1 ++ l2).getD j d = l1.getD j d := by
  simp [List.getD, List.getElem?_append_left h]

theorem getD_append_right {α : Type} (l1 l2 : List α) (j : Nat) (d : α)
    (h : l1.length ≤ j) : (l1 ++ l2).getD j d = l2.getD (j - l1.length) d := by
  simp [List.getD, List.getElem?_append_right h]

theorem tableWF_new (bsz : Nat) (h : 0 < bsz) : TableWF (ExtendibleHashTable.new bsz) := by
  have hb : ∀ j : Nat, (ExtendibleHashTable.new bsz).bucketAt j = ⟨bsz, 0, []⟩ := by
    intro j
    cases j <;> rfl
  refine ⟨rfl, ?_, ?_, ?_, ?_, ?_, h⟩
  · intro j hj
    have : j = 0 := by simpa [ExtendibleHashTable.new] using hj
    subst this
    exact Nat.lt_one_iff.mpr rfl
  · intro j hj
    rw [hb]
    exact Nat.le_refl 0
  · intro j1 hj1 j2 hj2
    have h1 : j1 = 0 := by simpa [ExtendibleHashTable.new] using hj1
    have h2 : j2 = 0 := by simpa [ExtendibleHashTable.new] using hj2
    subst h1; subst h2
    simp
  · intro j hj p hp
    rw [hb] at hp
    cases hp
  · intro j hj
    rw [hb]
    exact ⟨Nat.zero_le _, Nat.le_refl _, h⟩

theorem content_new (bsz : Nat) : Content (ExtendibleHashTable.new bsz) [] := by
  intro k
  simp [ExtendibleHashTable.new, ExtendibleHashTable.bucketAt,
    ExtendibleHashTable.IndexOf, List.getD]

theorem find?_eq_filter_head {α : Type} (l : List α) (p : α → Bool) :
    l.find? p = (l.filter p).head? := by
  induction l with
  | nil => rfl
  | cons a rest ih =>
    by_cases h : p a = true
    · simp [List.find?, List.filter, h]
    · simp only [List.find?, List.filter]
      rw [show p a = false by simpa using h]
      simpa using ih

theorem updateBucketAt_parts (t : ExtendibleHashTable) (i : Nat) (f : Bucket → Bucket) :
    (t.updateBucketAt i f).dir_ = t.dir_ ∧
    (t.updateBucketAt i f).global_depth_ = t.global_depth_ ∧
    (t.updateBucketAt i f).bucket_size_ = t.bucket_size_ ∧
    (t.updateBucketAt i f).store.length = t.store.length := by
  refine ⟨rfl, rfl, rfl, ?_⟩
  simp [ExtendibleHashTable.updateBucketAt]

theorem bucketAt_updateBucketAt (t : ExtendibleHashTable) (i j : Nat)
    (f : Bucket → Bucket) (hb : t.dir_.getD i 0 < t.store.length) :
    (t.updateBucketAt i f).bucketAt j =
      if t.dir_.getD j 0 = t.dir_.getD i 0 then f (t.bucketAt i)
      else t.bucketAt j := by
  unfold ExtendibleHashTable.updateBucketAt ExtendibleHashTable.bucketAt
  by_cases h : t.dir_.getD j 0 = t.dir_.getD i 0
  · rw [if_pos h]
    simp only [h]
    exact getD_set_self _ _ _ _ hb
  · rw [if_neg h]
    exact getD_set_ne _ _ _ _ _ (fun hc => h hc.symm)

/-- appending the new pair to the non-full home bucket preserves the
invariant and extends the content by that pair. -/
theorem insert_final_step (t : ExtendibleHashTable) (m : List (Nat × Nat)) (k v : Nat)
    (hwf : TableWF t) (hcont : Content t m) (hfresh : ∀ p ∈ m, p.1 ≠ k)
    (hnotfull : (t.bucketAt (t.IndexOf k)).IsFull = false) :
    TableWF (t.updateBucketAt (t.IndexOf k) (fun b => (b.Insert k v).2)) ∧
    Content (t.updateBucketAt (t.IndexOf k) (fun b => (b.Insert k v).2)) (m ++ [(k, v)]) := by
  set home := t.IndexOf k with hhome
  have hhlt : home < t.dir_.length := by
    rw [hwf.hlen, hhome]
    exact Nat.mod_lt _ (Nat.pos_pow_of_pos _ (by omega))
  have hbid : t.dir_.getD home 0 < t.store.length := hwf.hbid home hhlt
  set B := t.bucketAt home with hB
  have hmk : m.filter (fun p => p.1 == k) = [] := by
    rw [List.filter_eq_nil_iff]
    intro p hp
    simpa using hfresh p hp
  have hBk : B.list_.filter (fun p => p.1 == k) = [] := by
    rw [hB, hhome]
    rw [hcont k, hmk]
  have hfind : B.Find k = none := by
    unfold Bucket.Find
    rw [find?_eq_filter_head, hBk]
    rfl
  have hins : (B.Insert k v).2 = ⟨B.size_, B.depth_, B.list_ ++ [(k, v)]⟩ := by
    unfold Bucket.Insert
    rw [hnotfull]
    simp only [Bool.false_eq_true, if_false, hfind, Option.isSome_none,
      Bool.false_eq_true, if_false]
  set t2 := t.updateBucketAt home (fun b => (b.Insert k v).2) with ht2
  have hback : ∀ j, t2.bucketAt j =
      if t.dir_.getD j 0 = t.dir_.getD home 0
      then ⟨B.size_, B.depth_, B.list_ ++ [(k, v)]⟩ else t.bucketAt j := by
    intro j
    rw [ht2, bucketAt_updateBucketAt t home j _ hbid]
    simp only [hins]
  have hdepth2 : ∀ j, (t2.bucketAt j).depth_ = (t.bucketAt j).depth_ := by
    intro j
    rw [hback j]
    split
    · rename_i hj
      have : t.bucketAt j = B := by
        rw [hB]
        unfold ExtendibleHashTable.bucketAt
        rw [hj]
      rw [this]
    · rfl
  have hnf : B.list_.length < B.size_ := by
    have hle : B.list_.length ≤ B.size_ := (hwf.hcap home hhlt).1
    have hne : (B.list_.length == B.size_) = false := hnotfull
    simp only [beq_eq_false_iff_ne, Ne] at hne
    omega
  obtain ⟨hd2, hg2, hb2, hs2⟩ := updateBucketAt_parts t home (fun b => (b.Insert k v).2)
  constructor
  · refine ⟨?_, ?_, ?_, ?_, ?_, ?_, ?_⟩
    · rw [hd2, hg2]; exact hwf.hlen
    · intro j hj
      rw [hd2] at hj ⊢
      rw [hs2]
      exact hwf.hbid j hj
    · intro j hj
      rw [hd2] at hj
      rw [hg2, hdepth2 j]
      exact hwf.hdep j hj
    · intro j1 hj1 j2 hj2
      rw [hd2] at hj1 hj2 ⊢
      rw [hdepth2 j1]
      exact hwf.hsh j1 hj1 j2 hj2
    · intro j hj p hp
      rw [hd2] at hj
      rw [hdepth2 j]
      rw [hback j] at hp
      by_cases hjb : t.dir_.getD j 0 = t.dir_.getD home 0
      · rw [if_pos hjb] at hp
        simp only at hp
        have hBj : t.bucketAt j = B := by
          rw [hB]
          unfold ExtendibleHashTable.bucketAt
          rw [hjb]
        rcases List.mem_append.mp hp with hold | hnew
        · rw [hBj]
          have := hwf.hkey j hj p
          rw [hBj] at this
          exact this hold
        · have hpk : p = (k, v) := by simpa using hnew
          subst hpk
          -- k ≡ j (mod 2 ^ depth B): k ≡ home (mod 2^gd) and home ≡ j
          have hdle : (t.bucketAt j).depth_ ≤ t.global_depth_ := hwf.hdep j hj
          have hjh : j % 2 ^ (t.bucketAt j).depth_ = home % 2 ^ (t.bucketAt j).depth_ := by
            have := (hwf.hsh j hj home hhlt).mp hjb
            exact this
          have hkh : k % 2 ^ (t.bucketAt j).depth_ = home % 2 ^ (t.bucketAt j).depth_ := by
            rw [hhome]
            unfold ExtendibleHashTable.IndexOf
            rw [mod_pow_mod k _ _ hdle]
          simp only
          rw [hkh, hjh]
      · rw [if_neg hjb] at hp
        exact hwf.hkey j hj p hp
    · intro j hj
      rw [hd2] at hj
      rw [hb2, hback j]
      by_cases hjb : t.dir_.getD j 0 = t.dir_.getD home 0
      · rw [if_pos hjb]
        have hBj : t.bucketAt j = B := by
          rw [hB]
          unfold ExtendibleHashTable.bucketAt
          rw [hjb]
        have := hwf.hcap j hj
        rw [hBj] at this
        simp only [List.length_append, List.length_singleton]
        exact ⟨by omega, this.2.1, this.2.2⟩
      · rw [if_neg hjb]
        exact hwf.hcap j hj
    · rw [hb2]; exact hwf.hbsz
  · intro k2
    have hidx : t2.IndexOf k2 = t.IndexOf k2 := by
      unfold ExtendibleHashTable.IndexOf
      rw [hg2]
    rw [hidx, hback (t.IndexOf k2)]
    by_cases hjb : t.dir_.getD (t.IndexOf k2) 0 = t.dir_.getD home 0
    · rw [if_pos hjb]
      have hBj : t.bucketAt (t.IndexOf k2) = B := by
        rw [hB]
        unfold ExtendibleHashTable.bucketAt
        rw [hjb]
      simp only [List.filter_append]
      have h1 : B.list_.filter (fun p => p.1 == k2) = m.filter (fun p => p.1 == k2) := by
        rw [← hBj]
        exact hcont k2
      rw [h1]
    · rw [if_neg hjb]
      have hk2 : k2 ≠ k := by
        intro hc
        subst hc
        rw [← hhome] at hjb
        exact hjb rfl
      rw [List.filter_append, hcont k2]
      have h2 : [(k, v)].filter (fun p => p.1 == k2) = [] := by
        rw [List.filter_eq_nil_iff]
        intro p hp
        have hpkv : p = (k, v) := by simpa using hp
        subst hpkv
        simpa using Ne.symm hk2
      rw [h2, List.append_nil]

theorem mod_double_cases (a i g : Nat) (hi : i < 2 ^ g) (h : a % 2 ^ g = i) :
    a % 2 ^ (g + 1) = i ∨ a % 2 ^ (g + 1) = i + 2 ^ g := by
  have hpos : 0 < (2 : Nat) ^ g := Nat.pos_pow_of_pos _ (by omega)
  have hcompat : a % 2 ^ (g + 1) % 2 ^ g = i := by
    rw [mod_pow_mod a g (g + 1) (by omega), h]
  have hlt : a % 2 ^ (g + 1) < 2 ^ (g + 1) :=
    Nat.mod_lt _ (Nat.pos_pow_of_pos _ (by omega))
  have hpow : (2 : Nat) ^ (g + 1) = 2 * 2 ^ g := by ring
  generalize hy : a % 2 ^ (g + 1) = y at hcompat hlt ⊢
  by_cases hyl : y < 2 ^ g
  · left
    rw [Nat.mod_eq_of_lt hyl] at hcompat
    omega
  · right
    push_neg at hyl
    have hsub : y % 2 ^ g = (y - 2 ^ g) % 2 ^ g := Nat.mod_eq_sub_mod hyl
    have hlt2 : y - 2 ^ g < 2 ^ g := by omega
    rw [hsub, Nat.mod_eq_of_lt hlt2] at hcompat
    omega

theorem mod_add_pow_mod (i g d : Nat) (h : d ≤ g) :
    (i + 2 ^ g) % 2 ^ d = i % 2 ^ d := by
  obtain ⟨c, hc⟩ : (2 ^ d : Nat) ∣ 2 ^ g := pow_dvd_pow 2 h
  rw [hc, Nat.add_mul_mod_self_left]

theorem mod_of_mod_mod (j L d : Nat) (h : (2 ^ d : Nat) ∣ L) :
    j % L % 2 ^ d = j % 2 ^ d :=
  Nat.mod_mod_of_dvd j h

theorem slot_cases (j L r : Nat) (hj : j < 2 * L) (hr : r < L) (h : j % L = r) :
    j = r ∨ j = r + L := by
  have hL : 0 < L := by omega
  by_cases hjL : j < L
  · left
    rw [Nat.mod_eq_of_lt hjL] at h
    omega
  · right
    push_neg at hjL
    rw [Nat.mod_eq_sub_mod hjL, Nat.mod_eq_of_lt (by omega)] at h
    omega

theorem splitDouble_parts (t : ExtendibleHashTable) (i : Nat) :
    (t.splitDouble i).global_depth_ = t.global_depth_ + 1 ∧
    (t.splitDouble i).bucket_size_ = t.bucket_size_ + 1 ∧
    (t.splitDouble i).num_buckets_ = t.num_buckets_ ∧
    (t.splitDouble i).dir_.length = 2 * t.dir_.length ∧
    (t.splitDouble i).store.length = t.store.length + 1 := by
  refine ⟨rfl, rfl, rfl, ?_, ?_⟩ <;>
    simp [ExtendibleHashTable.splitDouble]
  omega

theorem splitDouble_dirAt (t : ExtendibleHashTable) (i : Nat)
    (hi : i < t.dir_.length) :
    ∀ j < 2 * t.dir_.length,
      (t.splitDouble i).dir_.getD j 0 =
        if j = i + t.dir_.length then t.store.length
        else t.dir_.getD (j % t.dir_.length) 0 := by
  intro j hj
  have hdir0 : (t.splitDouble i).dir_ =
      (t.dir_ ++ t.dir_).set (i + t.dir_.length) t.store.length := rfl
  rw [hdir0]
  by_cases hji : j = i + t.dir_.length
  · rw [if_pos hji, hji]
    exact getD_set_self _ _ _ _ (by simp only [List.length_append]; omega)
  · rw [if_neg hji, getD_set_ne _ _ _ _ _ (fun hc => hji hc.symm)]
    by_cases hjL : j < t.dir_.length
    · rw [getD_append_left _ _ _ _ hjL, Nat.mod_eq_of_lt hjL]
    · push_neg at hjL
      rw [getD_append_right _ _ _ _ hjL]
      have hmod : j % t.dir_.length = j - t.dir_.length := by
        rw [Nat.mod_eq_sub_mod hjL, Nat.mod_eq_of_lt (by omega)]
      rw [hmod]

theorem dir_uniq (t : ExtendibleHashTable) (i : Nat) (hwf : TableWF t)
    (hi : i < t.dir_.length) (hdi : (t.bucketAt i).depth_ = t.global_depth_) :
    ∀ j < t.dir_.length, (t.dir_.getD j 0 = t.dir_.getD i 0 ↔ j = i) := by
  intro j hj
  constructor
  · intro he
    have h2 := (hwf.hsh i hi j hj).mp he.symm
    rw [hdi, ← hwf.hlen] at h2
    rw [Nat.mod_eq_of_lt hi, Nat.mod_eq_of_lt hj] at h2
    omega
  · intro he
    rw [he]

theorem splitDouble_bucketAt (t : ExtendibleHashTable) (i : Nat)
    (hwf : TableWF t) (hi : i < t.dir_.length)
    (hdi : (t.bucketAt i).depth_ = t.global_depth_) :
    ∀ j < 2 * t.dir_.length,
      (t.splitDouble i).bucketAt j =
        if j = i + t.dir_.length then
          ⟨t.bucket_size_, t.global_depth_ + 1,
            (t.bucketAt i).list_.filter
              (fun p => !(p.1 % 2 ^ (t.global_depth_ + 1) == i))⟩
        else if j % t.dir_.length = i then
          ⟨(t.bucketAt i).size_, t.global_depth_ + 1,
            (t.bucketAt i).list_.filter
              (fun p => p.1 % 2 ^ (t.global_depth_ + 1) == i)⟩
        else t.bucketAt (j % t.dir_.length) := by
  intro j hj
  have hstore0 : (t.splitDouble i).store =
      (t.store.set (t.dir_.getD i 0)
        ⟨(t.bucketAt i).size_, (t.bucketAt i).depth_ + 1,
          (t.bucketAt i).list_.filter
            (fun p => p.1 % 2 ^ (t.global_depth_ + 1) == i)⟩)
      ++ [⟨t.bucket_size_, (t.bucketAt i).depth_ + 1,
          (t.bucketAt i).list_.filter
            (fun p => !(p.1 % 2 ^ (t.global_depth_ + 1) == i))⟩] := rfl
  have hLpos : 0 < t.dir_.length := by omega
  show (t.splitDouble i).store.getD ((t.splitDouble i).dir_.getD j 0) ⟨0, 0, []⟩ = _
  rw [splitDouble_dirAt t i hi j hj]
  by_cases hji : j = i + t.dir_.length
  · rw [if_pos hji, if_pos hji, hstore0]
    rw [getD_append_right _ _ _ _ (by simp)]
    simp only [List.length_set, Nat.sub_self, List.getD, List.getElem?_cons_zero,
      Option.getD_some]
    rw [hdi]
    rfl
  · rw [if_neg hji, if_neg hji]
    by_cases hjm : j % t.dir_.length = i
    · rw [if_pos hjm, hjm, hstore0]
      rw [getD_append_left _ _ _ _ (by simpa using hwf.hbid i hi)]
      rw [getD_set_self _ _ _ _ (hwf.hbid i hi)]
      rw [hdi]
    · rw [if_neg hjm]
      have hjmlt : j % t.dir_.length < t.dir_.length := Nat.mod_lt _ hLpos
      have hne : t.dir_.getD (j % t.dir_.length) 0 ≠ t.dir_.getD i 0 := by
        intro hc
        exact hjm ((dir_uniq t i hwf hi hdi (j % t.dir_.length) hjmlt).mp hc)
      rw [hstore0]
      rw [getD_append_left _ _ _ _ (by simpa using hwf.hbid _ hjmlt)]
      rw [getD_set_ne _ _ _ _ _ (fun hc => hne hc.symm)]
      rfl

/-- the directory-doubling split preserves the invariant and content,
raising the global depth by one. -/
theorem splitDouble_step (t : ExtendibleHashTable) (m : List (Nat × Nat)) (i : Nat)
    (hwf : TableWF t) (hcont : Content t m)
    (hi : i < t.dir_.length)
    (hdi : (t.bucketAt i).depth_ = t.global_depth_) :
    TableWF (t.splitDouble i) ∧ Content (t.splitDouble i) m := by
  obtain ⟨hg, hb, -, hdl, hsl⟩ := splitDouble_parts t i
  have hdirA := splitDouble_dirAt t i hi
  have hbuckA := splitDouble_bucketAt t i hwf hi hdi
  have hLpos : 0 < t.dir_.length := by omega
  have hL2 : 2 * t.dir_.length = 2 ^ (t.global_depth_ + 1) := by
    rw [hwf.hlen]; ring
  have hiL : i + t.dir_.length < 2 * t.dir_.length := by omega
  have hslot : ∀ j < 2 * t.dir_.length, j ≠ i + t.dir_.length →
      j % t.dir_.length = i → j = i := by
    intro j hj hne hm
    rcases slot_cases j t.dir_.length i hj hi hm with h | h
    · exact h
    · exact absurd h hne
  have hmodL : ∀ j, j < 2 * t.dir_.length → j % 2 ^ (t.global_depth_ + 1) = j := by
    intro j hj
    exact Nat.mod_eq_of_lt (by omega)
  constructor
  · refine ⟨?_, ?_, ?_, ?_, ?_, ?_, ?_⟩
    · rw [hdl, hg, hwf.hlen]; ring
    · intro j hj
      rw [hdl] at hj
      rw [hsl, hdirA j hj]
      split
      · omega
      · have := hwf.hbid (j % t.dir_.length) (Nat.mod_lt _ hLpos)
        omega
    · intro j hj
      rw [hdl] at hj
      rw [hg, hbuckA j hj]
      split
      · exact Nat.le_refl _
      · split
        · exact Nat.le_refl _
        · exact Nat.le_succ_of_le (hwf.hdep _ (Nat.mod_lt _ hLpos))
    · intro j1 hj1 j2 hj2
      rw [hdl] at hj1 hj2
      rw [hdirA j1 hj1, hdirA j2 hj2, hbuckA j1 hj1]
      by_cases hj1i : j1 = i + t.dir_.length
      · rw [if_pos hj1i, if_pos hj1i]
        by_cases hj2i : j2 = i + t.dir_.length
        · rw [if_pos hj2i]
          subst hj1i; subst hj2i
          simp
        · rw [if_neg hj2i]
          refine iff_of_false ?_ ?_
          · have := hwf.hbid (j2 % t.dir_.length) (Nat.mod_lt _ hLpos)
            omega
          · intro hc
            simp only at hc
            rw [hj1i] at hc
            rw [hmodL _ hiL, hmodL _ hj2] at hc
            exact hj2i hc.symm
      · rw [if_neg hj1i, if_neg hj1i]
        by_cases hj1m : j1 % t.dir_.length = i
        · have hj1e : j1 = i := hslot j1 hj1 hj1i hj1m
          rw [if_pos hj1m, hj1m]
          dsimp only
          rw [hmodL j1 hj1, hmodL j2 hj2]
          by_cases hj2i : j2 = i + t.dir_.length
          · rw [if_pos hj2i]
            refine iff_of_false ?_ ?_
            · have := hwf.hbid i hi
              omega
            · omega
          · rw [if_neg hj2i]
            constructor
            · intro hc
              have hj2m := (dir_uniq t i hwf hi hdi (j2 % t.dir_.length)
                (Nat.mod_lt _ hLpos)).mp hc.symm
              have := hslot j2 hj2 hj2i hj2m
              omega
            · intro hc
              have hj2m : j2 % t.dir_.length = i := by
                rw [← hc, hj1e, Nat.mod_eq_of_lt hi]
              rw [hj2m]
        · rw [if_neg hj1m]
          have hj1lt : j1 % t.dir_.length < t.dir_.length := Nat.mod_lt _ hLpos
          have hd : (t.bucketAt (j1 % t.dir_.length)).depth_ ≤ t.global_depth_ :=
            hwf.hdep _ hj1lt
          have hdvd : (2 : Nat) ^ (t.bucketAt (j1 % t.dir_.length)).depth_ ∣ t.dir_.length := by
            conv_rhs => rw [hwf.hlen]
            exact pow_dvd_pow 2 hd
          by_cases hj2i : j2 = i + t.dir_.length
          · rw [if_pos hj2i]
            refine iff_of_false ?_ ?_
            · have := hwf.hbid (j1 % t.dir_.length) hj1lt
              omega
            · intro hc
              rw [hj2i] at hc
              have hadd : (i + t.dir_.length) %
                    2 ^ (t.bucketAt (j1 % t.dir_.length)).depth_ =
                  i % 2 ^ (t.bucketAt (j1 % t.dir_.length)).depth_ := by
                have hLrw : i + t.dir_.length = i + 2 ^ t.global_depth_ := by
                  rw [hwf.hlen]
                rw [hLrw]
                exact mod_add_pow_mod i _ _ hd
              rw [hadd] at hc
              have hc1 : j1 % t.dir_.length %
                    2 ^ (t.bucketAt (j1 % t.dir_.length)).depth_ =
                  i % 2 ^ (t.bucketAt (j1 % t.dir_.length)).depth_ := by
                rw [mod_of_mod_mod j1 _ _ hdvd]
                exact hc
              have heq := (hwf.hsh (j1 % t.dir_.length) hj1lt i hi).mpr hc1
              exact hj1m ((dir_uniq t i hwf hi hdi _ hj1lt).mp heq)
          · rw [if_neg hj2i]
            have hj2lt : j2 % t.dir_.length < t.dir_.length := Nat.mod_lt _ hLpos
            have hiff := hwf.hsh (j1 % t.dir_.length) hj1lt (j2 % t.dir_.length) hj2lt
            rw [mod_of_mod_mod j1 _ _ hdvd, mod_of_mod_mod j2 _ _ hdvd] at hiff
            exact hiff
    · intro j hj p hp
      rw [hdl] at hj
      rw [hbuckA j hj] at hp ⊢
      by_cases hji : j = i + t.dir_.length
      · rw [if_pos hji] at hp ⊢
        simp only [List.mem_filter] at hp
        obtain ⟨hpmem, hpred⟩ := hp
        have hkey0 := hwf.hkey i hi p hpmem
        rw [hdi] at hkey0
        have hilt : i < 2 ^ t.global_depth_ := by rw [← hwf.hlen]; exact hi
        have himod : i % 2 ^ t.global_depth_ = i := Nat.mod_eq_of_lt hilt
        rw [himod] at hkey0
        rcases mod_double_cases p.1 i t.global_depth_ hilt hkey0 with hc | hc
        · rw [hc] at hpred
          simp at hpred
        · simp only
          rw [hc, hji, hmodL _ hiL, hwf.hlen]
      · rw [if_neg hji] at hp ⊢
        by_cases hjm : j % t.dir_.length = i
        · rw [if_pos hjm] at hp ⊢
          have hje : j = i := hslot j hj hji hjm
          subst hje
          simp only [List.mem_filter] at hp
          obtain ⟨hpmem, hpred⟩ := hp
          simp only
          rw [hmodL _ hj]
          simpa using hpred
        · rw [if_neg hjm] at hp ⊢
          have hjlt : j % t.dir_.length < t.dir_.length := Nat.mod_lt _ hLpos
          have hdvd : (2 : Nat) ^ (t.bucketAt (j % t.dir_.length)).depth_ ∣ t.dir_.length := by
            conv_rhs => rw [hwf.hlen]
            exact pow_dvd_pow 2 (hwf.hdep _ hjlt)
          have := hwf.hkey (j % t.dir_.length) hjlt p hp
          rw [mod_of_mod_mod j _ _ hdvd] at this
          exact this
    · intro j hj
      rw [hdl] at hj
      rw [hb, hbuckA j hj]
      split
      · dsimp only
        exact ⟨(List.length_filter_le _ _).trans
            ((hwf.hcap i hi).1.trans (hwf.hcap i hi).2.1),
          by omega, hwf.hbsz⟩
      · split
        · dsimp only
          exact ⟨(List.length_filter_le _ _).trans (hwf.hcap i hi).1,
            by have := (hwf.hcap i hi).2.1; omega, (hwf.hcap i hi).2.2⟩
        · have := hwf.hcap (j % t.dir_.length) (Nat.mod_lt _ hLpos)
          exact ⟨this.1, by omega, this.2.2⟩
    · rw [hb]; omega
  · intro k2
    have hidx : (t.splitDouble i).IndexOf k2 = k2 % 2 ^ (t.global_depth_ + 1) := rfl
    have hhlt : k2 % 2 ^ (t.global_depth_ + 1) < 2 * t.dir_.length := by
      rw [hL2]
      exact Nat.mod_lt _ (Nat.pos_pow_of_pos _ (by omega))
    rw [hidx, hbuckA _ hhlt]
    have hoh : t.IndexOf k2 = k2 % 2 ^ (t.global_depth_ + 1) % t.dir_.length := by
      unfold ExtendibleHashTable.IndexOf
      rw [hwf.hlen]
      exact (mod_pow_mod k2 _ _ (by omega)).symm
    by_cases hcase : k2 % 2 ^ (t.global_depth_ + 1) = i + t.dir_.length
    · rw [if_pos hcase]
      dsimp only
      rw [List.filter_filter]
      have hcg : ∀ a ∈ (t.bucketAt i).list_,
          ((a.1 == k2) && !(a.1 % 2 ^ (t.global_depth_ + 1) == i)) = (a.1 == k2) := by
        intro a ha
        by_cases hak : a.1 = k2
        · have hmod : a.1 % 2 ^ (t.global_depth_ + 1) = i + t.dir_.length := by
            rw [hak, hcase]
          rw [show (a.1 % 2 ^ (t.global_depth_ + 1) == i) = false by
            rw [hmod]; simp only [beq_eq_false_iff_ne, Ne]; omega]
          simp [hak]
        · simp [hak]
      rw [List.filter_congr' hcg]
      have hohi : t.IndexOf k2 = i := by
        rw [hoh, hcase, Nat.add_mod_right, Nat.mod_eq_of_lt hi]
      have hc := hcont k2
      rw [hohi] at hc
      exact hc
    · rw [if_neg hcase]
      by_cases hcase2 : k2 % 2 ^ (t.global_depth_ + 1) % t.dir_.length = i
      · rw [if_pos hcase2]
        dsimp only
        rw [List.filter_filter]
        have hhome : k2 % 2 ^ (t.global_depth_ + 1) = i :=
          hslot _ hhlt hcase hcase2
        have hcg : ∀ a ∈ (t.bucketAt i).list_,
            ((a.1 == k2) && (a.1 % 2 ^ (t.global_depth_ + 1) == i)) = (a.1 == k2) := by
          intro a ha
          by_cases hak : a.1 = k2
          · rw [show (a.1 % 2 ^ (t.global_depth_ + 1) == i) = true by
              rw [hak, hhome]; simp]
            simp [hak]
          · simp [hak]
        rw [List.filter_congr' hcg]
        have hohi : t.IndexOf k2 = i := by
          rw [hoh, hcase2]
        have hc := hcont k2
        rw [hohi] at hc
        exact hc
      · rw [if_neg hcase2]
        have hc := hcont k2
        rw [hoh] at hc
        exact hc

/-- full characterization of the slot-rewiring loop of the non-doubling
split: matching slots get fresh empty buckets of depth `global_depth_`
at pairwise-distinct new store indices; everything else is untouched. -/
theorem splitSlots_spec (bid0 mm : Nat) (idxs : List Nat) :
    ∀ t : ExtendibleHashTable, idxs.Nodup → (∀ j ∈ idxs, j < t.dir_.length) →
    (∀ j < t.dir_.length, t.dir_.getD j 0 < t.store.length) →
    (ExtendibleHashTable.splitSlots t bid0 mm idxs).global_depth_ = t.global_depth_ ∧
    (ExtendibleHashTable.splitSlots t bid0 mm idxs).dir_.length = t.dir_.length ∧
    t.bucket_size_ ≤ (ExtendibleHashTable.splitSlots t bid0 mm idxs).bucket_size_ ∧
    t.store.length ≤ (ExtendibleHashTable.splitSlots t bid0 mm idxs).store.length ∧
    (∀ b < t.store.length,
      (ExtendibleHashTable.splitSlots t bid0 mm idxs).store.getD b ⟨0, 0, []⟩ =
        t.store.getD b ⟨0, 0, []⟩) ∧
    (∀ j < t.dir_.length, (j ∉ idxs ∨ ¬(j % mm = bid0 % mm)) →
      (ExtendibleHashTable.splitSlots t bid0 mm idxs).dir_.getD j 0 = t.dir_.getD j 0) ∧
    (∀ j < t.dir_.length,
      (ExtendibleHashTable.splitSlots t bid0 mm idxs).dir_.getD j 0 <
        (ExtendibleHashTable.splitSlots t bid0 mm idxs).store.length) ∧
    (∀ j ∈ idxs, j % mm = bid0 % mm →
      t.store.length ≤ (ExtendibleHashTable.splitSlots t bid0 mm idxs).dir_.getD j 0 ∧
      ∃ c, t.bucket_size_ ≤ c ∧
        c ≤ (ExtendibleHashTable.splitSlots t bid0 mm idxs).bucket_size_ ∧
        (ExtendibleHashTable.splitSlots t bid0 mm idxs).bucketAt j =
          ⟨c, t.global_depth_, []⟩) ∧
    (∀ j1 ∈ idxs, j1 % mm = bid0 % mm → ∀ j2 < t.dir_.length, j1 ≠ j2 →
      (ExtendibleHashTable.splitSlots t bid0 mm idxs).dir_.getD j1 0 ≠
        (ExtendibleHashTable.splitSlots t bid0 mm idxs).dir_.getD j2 0) := by
  induction idxs with
  | nil =>
      intro t hnd hlt hbids
      refine ⟨rfl, rfl, Nat.le_refl _, Nat.le_refl _, fun b hb => rfl,
        fun j hj hcond => rfl, hbids, ?_, ?_⟩
      · intro j hj
        cases hj
      · intro j1 hj1
        cases hj1
  | cons i0 rest ih =>
      intro t hnd hlt hbids
      have hi0 : i0 < t.dir_.length := hlt i0 (by simp)
      have hndr : rest.Nodup := (List.nodup_cons.mp hnd).2
      have hi0r : i0 ∉ rest := (List.nodup_cons.mp hnd).1
      by_cases hm : (i0 % mm == bid0 % mm) = true
      · -- this slot is rewired
        have hsteq : ExtendibleHashTable.splitSlots t bid0 mm (i0 :: rest) =
            ExtendibleHashTable.splitSlots
              { t with
                store := t.store ++ [⟨t.bucket_size_, t.global_depth_, []⟩],
                dir_ := t.dir_.set i0 t.store.length,
                bucket_size_ :=
                  if i0 == bid0 then t.bucket_size_ else t.bucket_size_ + 1 }
              bid0 mm rest := by
          conv_lhs => rw [ExtendibleHashTable.splitSlots]
          rw [if_pos hm]
        set t1 : ExtendibleHashTable :=
          { t with
            store := t.store ++ [⟨t.bucket_size_, t.global_depth_, []⟩],
            dir_ := t.dir_.set i0 t.store.length,
            bucket_size_ :=
              if i0 == bid0 then t.bucket_size_ else t.bucket_size_ + 1 } with ht1
        have hdl1 : t1.dir_.length = t.dir_.length := by
          rw [ht1]; simp
        have hsl1 : t1.store.length = t.store.length + 1 := by
          rw [ht1]; simp
        have hbsz1 : t.bucket_size_ ≤ t1.bucket_size_ := by
          rw [ht1]
          dsimp only
          split <;> omega
        have hbids1 : ∀ j < t1.dir_.length, t1.dir_.getD j 0 < t1.store.length := by
          intro j hj
          rw [hdl1] at hj
          rw [hsl1, ht1]
          dsimp only
          by_cases hji : j = i0
          · rw [hji, getD_set_self _ _ _ _ hi0]
            omega
          · rw [getD_set_ne _ _ _ _ _ (fun hc => hji hc.symm)]
            have := hbids j hj
            omega
        have hlt1 : ∀ j ∈ rest, j < t1.dir_.length := by
          intro j hj
          rw [hdl1]
          exact hlt j (by simp [hj])
        obtain ⟨ihg, ihdl, ihbsz, ihsl, ihstore, ihdir, ihbids, ihfresh, ihuniq⟩ :=
          ih t1 hndr hlt1 hbids1
        rw [hsteq]
        have hg1 : t1.global_depth_ = t.global_depth_ := rfl
        have hdir_i0 : (ExtendibleHashTable.splitSlots t1 bid0 mm rest).dir_.getD i0 0 =
            t.store.length := by
          rw [ihdir i0 (by rw [hdl1]; exact hi0) (Or.inl hi0r), ht1]
          dsimp only
          rw [getD_set_self _ _ _ _ hi0]
        refine ⟨by rw [ihg], by rw [ihdl, hdl1], by omega,
          by omega, ?_, ?_, ?_, ?_, ?_⟩
        · intro b hb
          rw [ihstore b (by omega), ht1]
          dsimp only
          rw [getD_append_left _ _ _ _ hb]
        · intro j hj hcond
          have hji : j ≠ i0 := by
            rcases hcond with hc | hc
            · intro he
              exact hc (by simp [he])
            · intro he
              rw [he] at hc
              exact hc (by simpa using hm)
          have hcond1 : j ∉ rest ∨ ¬(j % mm = bid0 % mm) := by
            rcases hcond with hc | hc
            · exact Or.inl (fun hr => hc (by simp [hr]))
            · exact Or.inr hc
          rw [ihdir j (by rw [hdl1]; exact hj) hcond1, ht1]
          dsimp only
          rw [getD_set_ne _ _ _ _ _ (fun hc => hji hc.symm)]
        · intro j hj
          rw [← hdl1] at hj
          exact ihbids j hj
        · intro j hjmem hjm
          rcases List.mem_cons.mp hjmem with hje | hjr
          · subst hje
            refine ⟨by rw [hdir_i0], ⟨t.bucket_size_, Nat.le_refl _, by omega, ?_⟩⟩
            show (ExtendibleHashTable.splitSlots t1 bid0 mm rest).store.getD _ ⟨0,0,[]⟩ = _
            rw [hdir_i0, ihstore t.store.length (by omega), ht1]
            dsimp only
            rw [getD_append_right _ _ _ _ (Nat.le_refl _)]
            simp
          · obtain ⟨hge, c, hc1, hc2, hc3⟩ := ihfresh j hjr hjm
            refine ⟨by omega, ⟨c, by omega, hc2, ?_⟩⟩
            rw [hc3, hg1]
        · intro j1 hj1mem hj1m j2 hj2 hj12
          rw [← hdl1] at hj2
          rcases List.mem_cons.mp hj1mem with hje | hj1r
          · subst hje
            rw [hdir_i0]
            by_cases hj2r : j2 ∈ rest
            · by_cases hj2m : j2 % mm = bid0 % mm
              · have := (ihfresh j2 hj2r hj2m).1
                rw [hsl1] at this
                omega
              · rw [ihdir j2 hj2 (Or.inr hj2m), ht1]
                dsimp only
                rw [getD_set_ne _ _ _ _ _ hj12]
                have := hbids j2 (by rw [← hdl1]; exact hj2)
                omega
            · rw [ihdir j2 hj2 (Or.inl hj2r), ht1]
              dsimp only
              rw [getD_set_ne _ _ _ _ _ hj12]
              have := hbids j2 (by rw [← hdl1]; exact hj2)
              omega
          · exact ihuniq j1 hj1r hj1m j2 hj2 hj12
      · -- slot not rewired: recursion leaves this index untouched
        have hsteq : ExtendibleHashTable.splitSlots t bid0 mm (i0 :: rest) =
            ExtendibleHashTable.splitSlots t bid0 mm rest := by
          conv_lhs => rw [ExtendibleHashTable.splitSlots]
          rw [if_neg (by simpa using hm)]
        have hlt1 : ∀ j ∈ rest, j < t.dir_.length := fun j hj => hlt j (by simp [hj])
        obtain ⟨ihg, ihdl, ihbsz, ihsl, ihstore, ihdir, ihbids, ihfresh, ihuniq⟩ :=
          ih t hndr hlt1 hbids
        rw [hsteq]
        refine ⟨ihg, ihdl, ihbsz, ihsl, ihstore, ?_, ihbids, ?_, ?_⟩
        · intro j hj hcond
          have hcond1 : j ∉ rest ∨ ¬(j % mm = bid0 % mm) := by
            rcases hcond with hc | hc
            · exact Or.inl (fun hr => hc (by simp [hr]))
            · exact Or.inr hc
          exact ihdir j hj hcond1
        · intro j hjmem hjm
          rcases List.mem_cons.mp hjmem with hje | hjr
          · subst hje
            exact absurd hjm (by simpa using hm)
          · exact ihfresh j hjr hjm
        · intro j1 hj1mem hj1m j2 hj2 hj12
          rcases List.mem_cons.mp hj1mem with hje | hj1r
          · subst hje
            exact absurd hj1m (by simpa using hm)
          · exact ihuniq j1 hj1r hj1m j2 hj2 hj12

theorem filter_key_len_le_one (l : List (Nat × Nat))
    (h : (l.map Prod.fst).Nodup) (k : Nat) :
    (l.filter (fun p => p.1 == k)).length ≤ 1 := by
  induction l with
  | nil => simp
  | cons p rest ih =>
    rw [List.map_cons, List.nodup_cons] at h
    by_cases hp : p.1 = k
    · rw [List.filter_cons_of_pos (by simp [hp])]
      have : rest.filter (fun q => q.1 == k) = [] := by
        rw [List.filter_eq_nil_iff]
        intro q hq hqk
        refine h.1 ?_
        rw [hp]
        rw [show k = q.1 from (by simpa using hqk : q.1 = k).symm]
        exact List.mem_map.mpr ⟨q, hq, rfl⟩
      rw [this]
      simp
    · rw [List.filter_cons_of_neg (by simp [hp])]
      exact ih h.2

theorem nodup_keys_of_filter_le_one (l : List (Nat × Nat))
    (h : ∀ k, (l.filter (fun p => p.1 == k)).length ≤ 1) :
    (l.map Prod.fst).Nodup := by
  induction l with
  | nil => simp
  | cons p rest ih =>
    rw [List.map_cons, List.nodup_cons]
    constructor
    · intro hmem
      obtain ⟨q, hq, hqk⟩ := List.mem_map.mp hmem
      have := h p.1
      rw [List.filter_cons_of_pos (by simp)] at this
      have hqf : q ∈ rest.filter (fun r => r.1 == p.1) :=
        List.mem_filter.mpr ⟨hq, by simp [hqk]⟩
      have hlen : 0 < (rest.filter (fun r => r.1 == p.1)).length :=
        List.length_pos.mpr (List.ne_nil_of_mem hqf)
      simp only [List.length_cons] at this
      omega
    · refine ih ?_
      intro k
      have := h k
      by_cases hp : p.1 = k
      · rw [List.filter_cons_of_pos (by simp [hp])] at this
        simp only [List.length_cons] at this
        omega
      · rw [List.filter_cons_of_neg (by simp [hp])] at this
        exact this

/-- the re-insertion loop of the non-doubling split distributes the
snapshot of the full bucket's pairs over the freshly rewired slots,
grouping each pair at the directory slot of its key. -/
theorem reinsert_fold (t1 : ExtendibleHashTable) (i mm : Nat)
    (full : List (Nat × Nat))
    (huniq : ∀ j1 < t1.dir_.length, j1 % mm = i % mm → ∀ j2 < t1.dir_.length,
        j1 ≠ j2 → t1.dir_.getD j1 0 ≠ t1.dir_.getD j2 0)
    (hbid1 : ∀ j < t1.dir_.length, t1.dir_.getD j 0 < t1.store.length)
    (hLgd : t1.dir_.length = 2 ^ t1.global_depth_)
    (hkeys : ∀ p ∈ full, p.1 % mm = i % mm)
    (hdvd : mm ∣ 2 ^ t1.global_depth_)
    (hnodup : (full.map Prod.fst).Nodup)
    (hcapfull : ∀ j < t1.dir_.length, j % mm = i % mm →
        full.length ≤ (t1.bucketAt j).size_) :
    ∀ (suf pref : List (Nat × Nat)) (T : ExtendibleHashTable),
      full = pref ++ suf →
      T.global_depth_ = t1.global_depth_ →
      T.dir_ = t1.dir_ →
      T.bucket_size_ = t1.bucket_size_ →
      T.store.length = t1.store.length →
      (∀ j < t1.dir_.length, ¬(j % mm = i % mm) → T.bucketAt j = t1.bucketAt j) →
      (∀ j < t1.dir_.length, j % mm = i % mm →
          (T.bucketAt j).size_ = (t1.bucketAt j).size_ ∧
          (T.bucketAt j).depth_ = (t1.bucketAt j).depth_ ∧
          (T.bucketAt j).list_ =
            pref.filter (fun p => p.1 % 2 ^ t1.global_depth_ == j)) →
      (suf.foldl (fun acc p =>
          acc.updateBucketAt (acc.IndexOf p.1)
            (fun b => (b.Insert p.1 p.2).2)) T).global_depth_ = t1.global_depth_ ∧
      (suf.foldl (fun acc p =>
          acc.updateBucketAt (acc.IndexOf p.1)
            (fun b => (b.Insert p.1 p.2).2)) T).dir_ = t1.dir_ ∧
      (suf.foldl (fun acc p =>
          acc.updateBucketAt (acc.IndexOf p.1)
            (fun b => (b.Insert p.1 p.2).2)) T).bucket_size_ = t1.bucket_size_ ∧
      (suf.foldl (fun acc p =>
          acc.updateBucketAt (acc.IndexOf p.1)
            (fun b => (b.Insert p.1 p.2).2)) T).store.length = t1.store.length ∧
      (∀ j < t1.dir_.length, ¬(j % mm = i % mm) →
        (suf.foldl (fun acc p =>
          acc.updateBucketAt (acc.IndexOf p.1)
            (fun b => (b.Insert p.1 p.2).2)) T).bucketAt j = t1.bucketAt j) ∧
      (∀ j < t1.dir_.length, j % mm = i % mm →
        ((suf.foldl (fun acc p =>
          acc.updateBucketAt (acc.IndexOf p.1)
            (fun b => (b.Insert p.1 p.2).2)) T).bucketAt j).size_ =
            (t1.bucketAt j).size_ ∧
        ((suf.foldl (fun acc p =>
          acc.updateBucketAt (acc.IndexOf p.1)
            (fun b => (b.Insert p.1 p.2).2)) T).bucketAt j).depth_ =
            (t1.bucketAt j).depth_ ∧
        ((suf.foldl (fun acc p =>
          acc.updateBucketAt (acc.IndexOf p.1)
            (fun b => (b.Insert p.1 p.2).2)) T).bucketAt j).list_ =
            full.filter (fun p => p.1 % 2 ^ t1.global_depth_ == j)) := by
  intro suf
  induction suf with
  | nil =>
      intro pref T hfull hg hdir hbsz hsl hother hmatch
      refine ⟨hg, hdir, hbsz, hsl, hother, ?_⟩
      intro j hj hjm
      obtain ⟨h1, h2, h3⟩ := hmatch j hj hjm
      rw [List.append_nil] at hfull
      rw [← hfull] at h3
      exact ⟨h1, h2, h3⟩
  | cons p suf ih =>
      intro pref T hfull hg hdir hbsz hsl hother hmatch
      simp only [List.foldl_cons]
      have hpfull : p ∈ full := by rw [hfull]; simp
      have hkp : p.1 % mm = i % mm := hkeys p hpfull
      have hgd1pos : 0 < 2 ^ t1.global_depth_ := Nat.pos_pow_of_pos _ (by omega)
      have hhome : T.IndexOf p.1 = p.1 % 2 ^ t1.global_depth_ := by
        unfold ExtendibleHashTable.IndexOf
        rw [hg]
      have hhlt : p.1 % 2 ^ t1.global_depth_ < t1.dir_.length := by
        rw [hLgd]
        exact Nat.mod_lt _ hgd1pos
      have hhm : (p.1 % 2 ^ t1.global_depth_) % mm = i % mm := by
        rw [Nat.mod_mod_of_dvd _ hdvd]
        exact hkp
      obtain ⟨hsize, hdepth, hlist⟩ := hmatch _ hhlt hhm
      -- the current bucket is not full
      have hlen_pref : pref.length + (p :: suf).length = full.length := by
        rw [hfull, List.length_append]
      have hnotfull : ((T.bucketAt (p.1 % 2 ^ t1.global_depth_)).IsFull) = false := by
        unfold Bucket.IsFull
        rw [hlist, hsize]
        have hle : (pref.filter
            (fun q => q.1 % 2 ^ t1.global_depth_ == p.1 % 2 ^ t1.global_depth_)).length ≤
            pref.length := List.length_filter_le _ _
        have hcap := hcapfull _ hhlt hhm
        simp only [List.length_cons] at hlen_pref
        simp only [beq_eq_false_iff_ne, Ne]
        omega
      -- the key is not already present
      have hnokey : (T.bucketAt (p.1 % 2 ^ t1.global_depth_)).Find p.1 = none := by
        unfold Bucket.Find
        rw [find?_eq_filter_head, hlist]
        have hnil : List.filter (fun q => q.1 == p.1)
            (List.filter (fun q : Nat × Nat => q.1 % 2 ^ t1.global_depth_ ==
              p.1 % 2 ^ t1.global_depth_) pref) = [] := by
          rw [List.filter_filter, List.filter_eq_nil_iff]
          intro q hq hqand
          obtain ⟨hq1, hq2⟩ := Bool.and_eq_true_iff.mp hqand
          have hqp : q.1 = p.1 := by simpa using hq1
          have hbad : ¬(full.map Prod.fst).Nodup := by
            rw [hfull, List.map_append, List.nodup_append]
            intro hcontra
            exact hcontra.2.2 (List.mem_map.mpr ⟨q, hq, rfl⟩)
              (by rw [hqp]; exact List.mem_map.mpr ⟨p, by simp, rfl⟩)
          exact hbad hnodup
        rw [hnil]
        rfl
      have hins : ((T.bucketAt (p.1 % 2 ^ t1.global_depth_)).Insert p.1 p.2).2 =
          ⟨(T.bucketAt (p.1 % 2 ^ t1.global_depth_)).size_,
           (T.bucketAt (p.1 % 2 ^ t1.global_depth_)).depth_,
           (T.bucketAt (p.1 % 2 ^ t1.global_depth_)).list_ ++ [p]⟩ := by
        unfold Bucket.Insert
        rw [hnotfull, hnokey]
        simp
      have hbidT : T.dir_.getD (T.IndexOf p.1) 0 < T.store.length := by
        rw [hhome, hdir, hsl]
        exact hbid1 _ hhlt
      -- apply the induction hypothesis to the updated state
      refine ih (pref ++ [p]) _ (by rw [hfull]; simp) (by rw [← hg]; rfl)
        (by rw [← hdir]; rfl) (by rw [← hbsz]; rfl)
        (by rw [← hsl]; simp [ExtendibleHashTable.updateBucketAt]) ?_ ?_
      · intro j hj hjm
        rw [bucketAt_updateBucketAt T (T.IndexOf p.1) j _ hbidT]
        rw [if_neg ?_]
        · exact hother j hj hjm
        · intro hc
          rw [hdir] at hc
          rw [hhome] at hc
          exact (huniq _ hhlt hhm j hj (fun he => hjm (he ▸ hhm))) hc.symm
      · intro j hj hjm
        rw [bucketAt_updateBucketAt T (T.IndexOf p.1) j _ hbidT]
        by_cases hje : j = p.1 % 2 ^ t1.global_depth_
        · subst hje
          rw [if_pos (by rw [hhome])]
          rw [hhome]
          simp only [hins]
          refine ⟨hsize, hdepth, ?_⟩
          show (T.bucketAt (p.1 % 2 ^ t1.global_depth_)).list_ ++ [p] = _
          rw [hlist, List.filter_append,
            List.filter_cons_of_pos (by simp), List.filter_nil]
        · rw [if_neg ?_]
          · obtain ⟨h1, h2, h3⟩ := hmatch j hj hjm
            refine ⟨h1, h2, ?_⟩
            rw [h3, List.filter_append,
              List.filter_cons_of_neg (by simp [Ne.symm hje]), List.filter_nil,
              List.append_nil]
          · intro hc
            rw [hdir, hhome] at hc
            exact (huniq j hj hjm _ hhlt hje) hc

/-- the non-doubling split preserves the invariant and the content,
leaving the global depth unchanged and installing at slot `i` a fresh
bucket of depth `global_depth_` holding exactly the snapshot pairs whose
index is `i`. -/
theorem splitLocal_step (t : ExtendibleHashTable) (m : List (Nat × Nat)) (i : Nat)
    (hwf : TableWF t) (hcont : Content t m)
    (hmn : (m.map Prod.fst).Nodup)
    (hi : i < t.dir_.length) :
    TableWF (t.splitLocal i) ∧ Content (t.splitLocal i) m ∧
    (t.splitLocal i).global_depth_ = t.global_depth_ ∧
    (t.splitLocal i).dir_.length = t.dir_.length ∧
    t.bucket_size_ ≤ (t.splitLocal i).bucket_size_ ∧
    ((t.splitLocal i).bucketAt i).depth_ = t.global_depth_ ∧
    ((t.splitLocal i).bucketAt i).list_ =
      (t.bucketAt i).list_.filter (fun p => p.1 % 2 ^ t.global_depth_ == i) := by
  have hLpos : 0 < t.dir_.length := by omega
  have hdI : (t.bucketAt i).depth_ ≤ t.global_depth_ := hwf.hdep i hi
  obtain ⟨sg, sdl, sbsz, ssl, sstore, sdir, sbid, sfresh, suniq⟩ :=
    splitSlots_spec i (2 ^ (t.bucketAt i).depth_) (List.range t.dir_.length) t
      (List.nodup_range _) (fun j hj => List.mem_range.mp hj) hwf.hbid
  set t1 := ExtendibleHashTable.splitSlots t i (2 ^ (t.bucketAt i).depth_)
    (List.range t.dir_.length) with ht1
  have hloc : t.splitLocal i =
      (t.bucketAt i).list_.foldl (fun acc p =>
        acc.updateBucketAt (acc.IndexOf p.1) (fun b => (b.Insert p.1 p.2).2)) t1 := rfl
  -- matching slots ↔ slots referencing the split bucket
  have hmatch_iff : ∀ j < t.dir_.length,
      (j % 2 ^ (t.bucketAt i).depth_ = i % 2 ^ (t.bucketAt i).depth_ ↔
        t.dir_.getD j 0 = t.dir_.getD i 0) := by
    intro j hj
    have := hwf.hsh i hi j hj
    constructor
    · intro hm
      exact ((this.mpr hm.symm)).symm
    · intro he
      exact (this.mp he.symm).symm
  have hb_nonmatch : ∀ j < t.dir_.length,
      ¬(j % 2 ^ (t.bucketAt i).depth_ = i % 2 ^ (t.bucketAt i).depth_) →
      t1.bucketAt j = t.bucketAt j := by
    intro j hj hjm
    show t1.store.getD (t1.dir_.getD j 0) ⟨0, 0, []⟩ = _
    rw [sdir j hj (Or.inr hjm), sstore _ (hwf.hbid j hj)]
    rfl
  -- per-key uniqueness inside the split bucket
  have hB0nodup : (((t.bucketAt i).list_.map Prod.fst)).Nodup := by
    refine nodup_keys_of_filter_le_one _ ?_
    intro k
    cases hf : (t.bucketAt i).list_.filter (fun p => p.1 == k) with
    | nil => simp [hf]
    | cons q rest =>
        have hq : q ∈ (t.bucketAt i).list_.filter (fun p => p.1 == k) := by
          rw [hf]; simp
        have hqmem := List.mem_of_mem_filter hq
        have hqk : q.1 = k := by simpa using (List.mem_filter.mp hq).2
        have hkmod : k % 2 ^ (t.bucketAt i).depth_ = i % 2 ^ (t.bucketAt i).depth_ := by
          rw [← hqk]
          exact hwf.hkey i hi q hqmem
        have hhome : t.IndexOf k < t.dir_.length := by
          rw [hwf.hlen]
          exact Nat.mod_lt _ (Nat.pos_pow_of_pos _ (by omega))
        have hhm : t.IndexOf k % 2 ^ (t.bucketAt i).depth_ =
            i % 2 ^ (t.bucketAt i).depth_ := by
          show k % 2 ^ t.global_depth_ % 2 ^ (t.bucketAt i).depth_ = _
          rw [mod_pow_mod k _ _ hdI]
          exact hkmod
        have hdireq : t.dir_.getD (t.IndexOf k) 0 = t.dir_.getD i 0 :=
          (hmatch_iff _ hhome).mp hhm
        have hbeq : t.bucketAt (t.IndexOf k) = t.bucketAt i := by
          show t.store.getD (t.dir_.getD (t.IndexOf k) 0) ⟨0, 0, []⟩ = _
          rw [hdireq]
          rfl
        have := hcont k
        rw [hbeq] at this
        rw [← hf, this]
        exact filter_key_len_le_one m hmn k
  -- apply the re-insertion lemma
  have hdl1 : t1.dir_.length = t.dir_.length := sdl
  obtain ⟨fg, fdir, fbsz, fsl, fother, fmatch⟩ :=
    reinsert_fold t1 i (2 ^ (t.bucketAt i).depth_) (t.bucketAt i).list_
      (by
        intro j1 hj1 hj1m j2 hj2 hne
        rw [sdl] at hj1 hj2
        exact suniq j1 (List.mem_range.mpr hj1) hj1m j2 hj2 hne)
      (by
        intro j hj
        rw [sdl] at hj
        exact sbid j hj)
      (by rw [sdl, sg, hwf.hlen])
      (fun p hp => hwf.hkey i hi p hp)
      (by rw [sg]; exact pow_dvd_pow 2 hdI)
      hB0nodup
      (by
        intro j hj hjm
        rw [sdl] at hj
        obtain ⟨-, c, hc1, hc2, hc3⟩ := sfresh j (List.mem_range.mpr hj) hjm
        rw [hc3]
        have hlen := (hwf.hcap i hi).1
        have hble := (hwf.hcap i hi).2.1
        show (t.bucketAt i).list_.length ≤ c
        omega)
      (t.bucketAt i).list_ [] t1 (by simp) rfl rfl rfl rfl
      (fun j hj hjm => rfl)
      (by
        intro j hj hjm
        rw [sdl] at hj
        obtain ⟨-, c, hc1, hc2, hc3⟩ := sfresh j (List.mem_range.mpr hj) hjm
        rw [hc3]
        exact ⟨rfl, rfl, by simp⟩)
  rw [← hloc] at fg fdir fbsz fsl fother fmatch
  have hg2 : (t.splitLocal i).global_depth_ = t.global_depth_ := by rw [fg, sg]
  have hdl2 : (t.splitLocal i).dir_.length = t.dir_.length := by rw [fdir, hdl1]
  have him : i % 2 ^ (t.bucketAt i).depth_ = i % 2 ^ (t.bucketAt i).depth_ := rfl
  have hfr_i := sfresh i (List.mem_range.mpr hi) him
  obtain ⟨-, ci, hci1, hci2, hci3⟩ := hfr_i
  obtain ⟨fsz_i, fdep_i, flist_i⟩ := fmatch i (by rw [hdl1]; exact hi) him
  refine ⟨?_, ?_, hg2, hdl2, by omega, ?_, ?_⟩
  · -- TableWF
    refine ⟨?_, ?_, ?_, ?_, ?_, ?_, ?_⟩
    · rw [hdl2, hg2, hwf.hlen]
    · intro j hj
      rw [hdl2] at hj
      rw [show (t.splitLocal i).dir_.getD j 0 = t1.dir_.getD j 0 by rw [fdir]]
      rw [show (t.splitLocal i).store.length = t1.store.length from fsl]
      exact sbid j hj
    · intro j hj
      rw [hdl2] at hj
      rw [hg2]
      by_cases hjm : j % 2 ^ (t.bucketAt i).depth_ = i % 2 ^ (t.bucketAt i).depth_
      · obtain ⟨-, fdep_j, -⟩ := fmatch j (by rw [hdl1]; exact hj) hjm
        obtain ⟨-, cj, -, -, hcj3⟩ := sfresh j (List.mem_range.mpr hj) hjm
        rw [fdep_j, hcj3]
      · rw [fother j (by rw [hdl1]; exact hj) hjm, hb_nonmatch j hj hjm]
        exact hwf.hdep j hj
    · intro j1 hj1 j2 hj2
      rw [hdl2] at hj1 hj2
      rw [show (t.splitLocal i).dir_.getD j1 0 = t1.dir_.getD j1 0 by rw [fdir]]
      rw [show (t.splitLocal i).dir_.getD j2 0 = t1.dir_.getD j2 0 by rw [fdir]]
      by_cases hj1m : j1 % 2 ^ (t.bucketAt i).depth_ = i % 2 ^ (t.bucketAt i).depth_
      · obtain ⟨-, fdep_j, -⟩ := fmatch j1 (by rw [hdl1]; exact hj1) hj1m
        obtain ⟨-, cj, -, -, hcj3⟩ := sfresh j1 (List.mem_range.mpr hj1) hj1m
        rw [fdep_j, hcj3]
        show _ ↔ j1 % 2 ^ t.global_depth_ = j2 % 2 ^ t.global_depth_
        rw [Nat.mod_eq_of_lt (by rw [← hwf.hlen]; exact hj1),
          Nat.mod_eq_of_lt (by rw [← hwf.hlen]; exact hj2)]
        constructor
        · intro he
          by_contra hne
          exact (suniq j1 (List.mem_range.mpr hj1) hj1m j2 hj2 hne) he
        · intro he
          rw [he]
      · obtain hbj1 := hb_nonmatch j1 hj1 hj1m
        rw [fother j1 (by rw [hdl1]; exact hj1) hj1m, hbj1]
        rw [sdir j1 hj1 (Or.inr hj1m)]
        by_cases hj2m : j2 % 2 ^ (t.bucketAt i).depth_ = i % 2 ^ (t.bucketAt i).depth_
        · refine iff_of_false ?_ ?_
          · obtain ⟨hge, -, -, -, -⟩ := sfresh j2 (List.mem_range.mpr hj2) hj2m
            have := hwf.hbid j1 hj1
            omega
          · intro hc
            have hdd : (2 : Nat) ^ (t.bucketAt j1).depth_ ∣
                2 ^ (t.bucketAt i).depth_ → True := fun _ => trivial
            have hold := (hwf.hsh j1 hj1 j2 hj2).mpr hc
            have hj2b : t.dir_.getD j2 0 = t.dir_.getD i 0 :=
              (hmatch_iff j2 hj2).mp hj2m
            rw [hj2b] at hold
            exact hj1m ((hmatch_iff j1 hj1).mpr hold)
        · rw [sdir j2 hj2 (Or.inr hj2m)]
          exact hwf.hsh j1 hj1 j2 hj2
    · intro j hj p hp
      rw [hdl2] at hj
      by_cases hjm : j % 2 ^ (t.bucketAt i).depth_ = i % 2 ^ (t.bucketAt i).depth_
      · obtain ⟨-, fdep_j, flist_j⟩ := fmatch j (by rw [hdl1]; exact hj) hjm
        obtain ⟨-, cj, -, -, hcj3⟩ := sfresh j (List.mem_range.mpr hj) hjm
        rw [flist_j] at hp
        rw [fdep_j, hcj3]
        have hpj : p.1 % 2 ^ t1.global_depth_ = j := by
          simpa using (List.mem_filter.mp hp).2
        rw [sg] at hpj
        show p.1 % 2 ^ t.global_depth_ = j % 2 ^ t.global_depth_
        rw [hpj, Nat.mod_eq_of_lt (by rw [← hwf.hlen]; exact hj)]
      · rw [fother j (by rw [hdl1]; exact hj) hjm, hb_nonmatch j hj hjm] at hp ⊢
        exact hwf.hkey j hj p hp
    · intro j hj
      rw [hdl2] at hj
      have hbsz2 : (t.splitLocal i).bucket_size_ = t1.bucket_size_ := fbsz
      by_cases hjm : j % 2 ^ (t.bucketAt i).depth_ = i % 2 ^ (t.bucketAt i).depth_
      · obtain ⟨fsz_j, -, flist_j⟩ := fmatch j (by rw [hdl1]; exact hj) hjm
        obtain ⟨-, cj, hcj1, hcj2, hcj3⟩ := sfresh j (List.mem_range.mpr hj) hjm
        rw [fsz_j, flist_j, hcj3, hbsz2]
        have hb0 := hwf.hbsz
        refine ⟨?_, hcj2, by show 0 < cj; omega⟩
        have h1 : (((t.bucketAt i).list_).filter
            (fun p => p.1 % 2 ^ t1.global_depth_ == j)).length ≤
            ((t.bucketAt i).list_).length := List.length_filter_le _ _
        have h2 := (hwf.hcap i hi).1
        have h3 := (hwf.hcap i hi).2.1
        show _ ≤ ({ size_ := cj, depth_ := t.global_depth_, list_ := [] } : Bucket).size_
        show _ ≤ cj
        omega
      · rw [fother j (by rw [hdl1]; exact hj) hjm, hb_nonmatch j hj hjm, hbsz2]
        obtain ⟨h1, h2, h3⟩ := hwf.hcap j hj
        exact ⟨h1, by omega, h3⟩
    · have : 0 < t.bucket_size_ := hwf.hbsz
      have hbsz2 : (t.splitLocal i).bucket_size_ = t1.bucket_size_ := fbsz
      omega
  · -- Content
    intro k
    have hidx : (t.splitLocal i).IndexOf k = t.IndexOf k := by
      unfold ExtendibleHashTable.IndexOf
      rw [hg2]
    have hhome : t.IndexOf k < t.dir_.length := by
      rw [hwf.hlen]
      exact Nat.mod_lt _ (Nat.pos_pow_of_pos _ (by omega))
    rw [hidx]
    by_cases hkm : t.IndexOf k % 2 ^ (t.bucketAt i).depth_ =
        i % 2 ^ (t.bucketAt i).depth_
    · obtain ⟨-, -, flist_k⟩ := fmatch (t.IndexOf k) (by rw [hdl1]; exact hhome) hkm
      rw [flist_k, List.filter_filter]
      have hdireq : t.dir_.getD (t.IndexOf k) 0 = t.dir_.getD i 0 :=
        (hmatch_iff _ hhome).mp hkm
      have hbeq : t.bucketAt (t.IndexOf k) = t.bucketAt i := by
        show t.store.getD (t.dir_.getD (t.IndexOf k) 0) ⟨0, 0, []⟩ = _
        rw [hdireq]
        rfl
      have hcg : ∀ a ∈ (t.bucketAt i).list_,
          ((a.1 == k) && (a.1 % 2 ^ t1.global_depth_ == t.IndexOf k)) = (a.1 == k) := by
        intro a ha
        by_cases hak : a.1 = k
        · rw [show (a.1 % 2 ^ t1.global_depth_ == t.IndexOf k) = true by
            rw [hak, sg]; simp [ExtendibleHashTable.IndexOf]]
          simp
        · simp [hak]
      rw [List.filter_congr' hcg]
      have := hcont k
      rw [hbeq] at this
      exact this
    · rw [fother _ (by rw [hdl1]; exact hhome) hkm, hb_nonmatch _ hhome hkm]
      exact hcont k
  · rw [fdep_i, hci3]
  · rw [flist_i, sg]

/-! ### C5: termination and correctness of the fueled insert loop -/

/-- one unfolding of the `while (bucket_tar->IsFull())` loop. -/
theorem insertLoop_succ (k v f : Nat) (t : ExtendibleHashTable) :
    ExtendibleHashTable.insertLoop k v (f + 1) t =
      if t.IndexOf k ≥ t.dir_.length then t
      else if (t.bucketAt (t.IndexOf k)).IsFull then
        ExtendibleHashTable.insertLoop k v f
          (if t.global_depth_ == (t.bucketAt (t.IndexOf k)).depth_
           then t.splitDouble (t.IndexOf k) else t.splitLocal (t.IndexOf k))
      else t.updateBucketAt (t.IndexOf k) (fun b => (b.Insert k v).2) := by
  rfl

/-- every pair stored in a directory-reachable bucket of a well-formed
table realizing `m` is a pair of `m`: its home slot aliases the bucket it
sits in, and `Content` at its own key places it in `m`. -/
theorem stored_pair_mem (t : ExtendibleHashTable) (m : List (Nat × Nat))
    (hwf : TableWF t) (hcont : Content t m) :
    ∀ j < t.dir_.length, ∀ p ∈ (t.bucketAt j).list_, p ∈ m := by
  intro j hj p hp
  have hgpos : 0 < 2 ^ t.global_depth_ := Nat.pos_pow_of_pos _ (by omega)
  have hh : t.IndexOf p.1 < t.dir_.length := by
    rw [hwf.hlen]
    exact Nat.mod_lt _ hgpos
  have hdj : (t.bucketAt j).depth_ ≤ t.global_depth_ := hwf.hdep j hj
  have hmod : j % 2 ^ (t.bucketAt j).depth_ =
      t.IndexOf p.1 % 2 ^ (t.bucketAt j).depth_ := by
    show _ = p.1 % 2 ^ t.global_depth_ % 2 ^ (t.bucketAt j).depth_
    rw [mod_pow_mod p.1 _ _ hdj]
    exact (hwf.hkey j hj p hp).symm
  have hdire : t.dir_.getD j 0 = t.dir_.getD (t.IndexOf p.1) 0 :=
    (hwf.hsh j hj (t.IndexOf p.1) hh).mpr hmod
  have hbeq : t.bucketAt (t.IndexOf p.1) = t.bucketAt j := by
    show t.store.getD (t.dir_.getD (t.IndexOf p.1) 0) ⟨0, 0, []⟩ = _
    rw [← hdire]
    rfl
  have hc := hcont p.1
  rw [hbeq] at hc
  have hpf : p ∈ (t.bucketAt j).list_.filter (fun q => q.1 == p.1) :=
    List.mem_filter.mpr ⟨hp, by simp⟩
  rw [hc] at hpf
  exact List.mem_of_mem_filter hpf

theorem foldl_max_le_init (ps : List (Nat × Nat)) :
    ∀ a : Nat, a ≤ ps.foldl (fun m p => max m p.1) a := by
  induction ps with
  | nil => intro a; exact Nat.le_refl a
  | cons q rest ih =>
      intro a
      simp only [List.foldl_cons]
      exact le_trans (Nat.le_max_left a q.1) (ih (max a q.1))

theorem foldl_max_mem (ps : List (Nat × Nat)) :
    ∀ a : Nat, ∀ p ∈ ps, p.1 ≤ ps.foldl (fun m p => max m p.1) a := by
  induction ps with
  | nil => intro a p hp; cases hp
  | cons q rest ih =>
      intro a p hp
      simp only [List.foldl_cons]
      rcases List.mem_cons.mp hp with h | h
      · subst h
        exact le_trans (Nat.le_max_right a p.1) (foldl_max_le_init rest (max a p.1))
      · exact ih (max a q.1) p h

theorem store_foldl_le_init (bs : List Bucket) :
    ∀ a : Nat, a ≤ bs.foldl (fun m b => b.list_.foldl (fun m p => max m p.1) m) a := by
  induction bs with
  | nil => intro a; exact Nat.le_refl a
  | cons b rest ih =>
      intro a
      simp only [List.foldl_cons]
      exact le_trans (foldl_max_le_init b.list_ a) (ih _)

theorem store_foldl_mem (bs : List Bucket) :
    ∀ a : Nat, ∀ b ∈ bs, ∀ p ∈ b.list_,
      p.1 ≤ bs.foldl (fun m b => b.list_.foldl (fun m p => max m p.1) m) a := by
  induction bs with
  | nil => intro a b hb; cases hb
  | cons c rest ih =>
      intro a b hb p hp
      simp only [List.foldl_cons]
      rcases List.mem_cons.mp hb with h | h
      · subst h
        exact le_trans (foldl_max_mem b.list_ a p hp) (store_foldl_le_init rest _)
      · exact ih _ b h p hp

/-- `maxKey` bounds every key stored anywhere in the arena. -/
theorem maxKey_bound (t : ExtendibleHashTable) :
    ∀ b ∈ t.store, ∀ p ∈ b.list_, p.1 ≤ t.maxKey :=
  fun b hb p hp => store_foldl_mem t.store 0 b hb p hp

/-- every key of the realized association list is bounded by `maxKey`. -/
theorem mem_key_le_maxKey (t : ExtendibleHashTable) (m : List (Nat × Nat))
    (hwf : TableWF t) (hcont : Content t m) :
    ∀ p ∈ m, p.1 ≤ t.maxKey := by
  intro p hpm
  have hgpos : 0 < 2 ^ t.global_depth_ := Nat.pos_pow_of_pos _ (by omega)
  have hh : t.IndexOf p.1 < t.dir_.length := by
    rw [hwf.hlen]
    exact Nat.mod_lt _ hgpos
  have hpf : p ∈ m.filter (fun q => q.1 == p.1) :=
    List.mem_filter.mpr ⟨hpm, by simp⟩
  rw [← hcont p.1] at hpf
  have hpb : p ∈ (t.bucketAt (t.IndexOf p.1)).list_ := List.mem_of_mem_filter hpf
  have hbid : t.dir_.getD (t.IndexOf p.1) 0 < t.store.length := hwf.hbid _ hh
  have hbmem : t.bucketAt (t.IndexOf p.1) ∈ t.store := by
    show t.store.getD (t.dir_.getD (t.IndexOf p.1) 0) ⟨0, 0, []⟩ ∈ t.store
    rw [List.getD_eq_getElem t.store _ hbid]
    exact List.getElem_mem hbid
  exact maxKey_bound t _ hbmem p hpb

/-- the fueled insert loop: with all keys below `2 ^ B` and fuel at least
`2 * (B - global_depth_) + 2`, the loop terminates in an insertion,
preserving the invariant and appending the fresh pair to the realized
list.  Each doubling split raises the global depth; a non-doubling split
is followed within one step by the final insertion or by a doubling
split; and once the global depth reaches `B` a full home bucket is
impossible, so the loop exits. -/
theorem insertLoop_correct (k v B : Nat) (m : List (Nat × Nat))
    (hmn : (m.map Prod.fst).Nodup)
    (hfresh : ∀ p ∈ m, p.1 ≠ k)
    (hkB : k < 2 ^ B)
    (hmB : ∀ p ∈ m, p.1 < 2 ^ B) :
    ∀ fuel : Nat, ∀ t : ExtendibleHashTable, TableWF t → Content t m →
      2 * (B - t.global_depth_) + 2 ≤ fuel →
      TableWF (ExtendibleHashTable.insertLoop k v fuel t) ∧
      Content (ExtendibleHashTable.insertLoop k v fuel t) (m ++ [(k, v)]) := by
  intro fuel
  induction fuel using Nat.strong_induction_on with
  | _ fuel ih =>
    intro t hwf hcont hfuel
    cases fuel with
    | zero => exact absurd hfuel (by omega)
    | succ f =>
      rw [insertLoop_succ]
      have hgpos : 0 < 2 ^ t.global_depth_ := Nat.pos_pow_of_pos _ (by omega)
      have hlt : t.IndexOf k < t.dir_.length := by
        rw [hwf.hlen]
        exact Nat.mod_lt _ hgpos
      rw [if_neg (Nat.not_le.mpr hlt)]
      by_cases hfull : (t.bucketAt (t.IndexOf k)).IsFull = true
      · rw [if_pos hfull]
        by_cases hdep : t.global_depth_ = (t.bucketAt (t.IndexOf k)).depth_
        · -- doubling split
          rw [if_pos (by simpa using hdep)]
          have hgdB : t.global_depth_ < B := by
            by_contra hge
            push_neg at hge
            obtain ⟨hlen_le, hsz_le, hsz_pos⟩ := hwf.hcap _ hlt
            have hlen_eq : (t.bucketAt (t.IndexOf k)).list_.length =
                (t.bucketAt (t.IndexOf k)).size_ := by
              have hf := hfull
              unfold Bucket.IsFull at hf
              simpa using hf
            have hne : (t.bucketAt (t.IndexOf k)).list_ ≠ [] := by
              intro h0
              rw [h0] at hlen_eq
              simp at hlen_eq
              omega
            obtain ⟨p, hp⟩ := List.exists_mem_of_ne_nil _ hne
            have hpm : p ∈ m := stored_pair_mem t m hwf hcont _ hlt p hp
            have hBle : (2 : Nat) ^ B ≤ 2 ^ t.global_depth_ :=
              Nat.pow_le_pow_right (by omega) hge
            have hkgd : k < 2 ^ t.global_depth_ := lt_of_lt_of_le hkB hBle
            have hpgd : p.1 < 2 ^ t.global_depth_ := lt_of_lt_of_le (hmB p hpm) hBle
            have hkey := hwf.hkey _ hlt p hp
            rw [← hdep] at hkey
            have hkey2 : p.1 = k := by
              have h1 : t.IndexOf k % 2 ^ t.global_depth_ = k := by
                show k % 2 ^ t.global_depth_ % 2 ^ t.global_depth_ = k
                rw [Nat.mod_eq_of_lt (Nat.mod_lt _ hgpos), Nat.mod_eq_of_lt hkgd]
              rw [Nat.mod_eq_of_lt hpgd, h1] at hkey
              exact hkey
            exact (hfresh p hpm) hkey2
          obtain ⟨hwf3, hcont3⟩ :=
            splitDouble_step t m (t.IndexOf k) hwf hcont hlt hdep.symm
          have hg3 : (t.splitDouble (t.IndexOf k)).global_depth_ =
              t.global_depth_ + 1 := rfl
          exact ih f (Nat.lt_succ_self f) _ hwf3 hcont3 (by rw [hg3]; omega)
        · -- non-doubling split
          rw [if_neg (by simpa using hdep)]
          obtain ⟨hwf2, hcont2, hg2, hdl2, hbsz2, hdep2, hlist2⟩ :=
            splitLocal_step t m (t.IndexOf k) hwf hcont hmn hlt
          cases f with
          | zero => exact absurd hfuel (by omega)
          | succ f2 =>
            set t2 := t.splitLocal (t.IndexOf k) with ht2
            have hhome2 : t2.IndexOf k = t.IndexOf k := by
              unfold ExtendibleHashTable.IndexOf
              rw [hg2]
            have hlt2 : t2.IndexOf k < t2.dir_.length := by
              rw [hhome2, hdl2]
              exact hlt
            rw [insertLoop_succ, if_neg (Nat.not_le.mpr hlt2)]
            by_cases hf2 : (t2.bucketAt (t2.IndexOf k)).IsFull = true
            · rw [if_pos hf2]
              have hd2 : (t2.bucketAt (t2.IndexOf k)).depth_ = t2.global_depth_ := by
                rw [hhome2, hdep2, hg2]
              rw [if_pos (by simpa using hd2.symm)]
              have hgdB : t.global_depth_ < B := by
                by_contra hge
                push_neg at hge
                obtain ⟨hle2, hsz2, hpos2⟩ := hwf2.hcap _ hlt2
                have hlen_eq : (t2.bucketAt (t2.IndexOf k)).list_.length =
                    (t2.bucketAt (t2.IndexOf k)).size_ := by
                  have hf := hf2
                  unfold Bucket.IsFull at hf
                  simpa using hf
                have hne : (t2.bucketAt (t2.IndexOf k)).list_ ≠ [] := by
                  intro h0
                  rw [h0] at hlen_eq
                  simp at hlen_eq
                  omega
                have hlist2i : (t2.bucketAt (t2.IndexOf k)).list_ =
                    (t.bucketAt (t.IndexOf k)).list_.filter
                      (fun p => p.1 % 2 ^ t.global_depth_ == t.IndexOf k) := by
                  rw [hhome2]
                  exact hlist2
                obtain ⟨p, hp⟩ := List.exists_mem_of_ne_nil _ hne
                rw [hlist2i] at hp
                have hpmem := List.mem_of_mem_filter hp
                have hpmod := (List.mem_filter.mp hp).2
                have hpm : p ∈ m := stored_pair_mem t m hwf hcont _ hlt p hpmem
                have hBle : (2 : Nat) ^ B ≤ 2 ^ t.global_depth_ :=
                  Nat.pow_le_pow_right (by omega) hge
                have hkgd : k < 2 ^ t.global_depth_ := lt_of_lt_of_le hkB hBle
                have hpgd : p.1 < 2 ^ t.global_depth_ :=
                  lt_of_lt_of_le (hmB p hpm) hBle
                have hkey2 : p.1 = k := by
                  have h1 : p.1 % 2 ^ t.global_depth_ = t.IndexOf k := by
                    simpa using hpmod
                  rw [Nat.mod_eq_of_lt hpgd] at h1
                  rw [h1]
                  show k % 2 ^ t.global_depth_ = k
                  exact Nat.mod_eq_of_lt hkgd
                exact (hfresh p hpm) hkey2
              obtain ⟨hwf3, hcont3⟩ :=
                splitDouble_step t2 m (t2.IndexOf k) hwf2 hcont2 hlt2 hd2
              have hg3 : (t2.splitDouble (t2.IndexOf k)).global_depth_ =
                  t2.global_depth_ + 1 := rfl
              exact ih f2 (by omega) _ hwf3 hcont3 (by rw [hg3, hg2]; omega)
            · rw [if_neg hf2]
              have hf2f : (t2.bucketAt (t2.IndexOf k)).IsFull = false := by
                simpa using hf2
              exact insert_final_step t2 m k v hwf2 hcont2 hfresh hf2f
      · rw [if_neg hfull]
        have hff : (t.bucketAt (t.IndexOf k)).IsFull = false := by
          simpa using hfull
        exact insert_final_step t m k v hwf hcont hfresh hff

/-- `Insert` on a well-formed table with a fresh key: the default fuel
`2 * (key + maxKey + global_depth_) + 8` is sufficient, the invariant is
preserved and the pair is appended to the realized association list. -/
theorem Insert_correct (t : ExtendibleHashTable) (m : List (Nat × Nat)) (k v : Nat)
    (hwf : TableWF t) (hcont : Content t m)
    (hmn : (m.map Prod.fst).Nodup)
    (hfresh : ∀ p ∈ m, p.1 ≠ k) :
    TableWF (t.Insert k v) ∧ Content (t.Insert k v) (m ++ [(k, v)]) := by
  have hkB : k < 2 ^ (k + t.maxKey + 1) := by
    have h1 : k + t.maxKey + 1 < 2 ^ (k + t.maxKey + 1) := Nat.lt_two_pow _
    omega
  have hmB : ∀ p ∈ m, p.1 < 2 ^ (k + t.maxKey + 1) := by
    intro p hpm
    have h1 := mem_key_le_maxKey t m hwf hcont p hpm
    have h2 : k + t.maxKey + 1 < 2 ^ (k + t.maxKey + 1) := Nat.lt_two_pow _
    omega
  exact insertLoop_correct k v (k + t.maxKey + 1) m hmn hfresh hkB hmB
    (2 * (k + t.maxKey + t.global_depth_) + 8) t hwf hcont (by omega)

/-- a sequence of `Insert` calls whose keys are fresh for the realized
list and pairwise distinct appends all its pairs to the realized list. -/
theorem insertAll_correct (ps : List (Nat × Nat)) :
    ∀ (t : ExtendibleHashTable) (m : List (Nat × Nat)),
      TableWF t → Content t m →
      ((m.map Prod.fst) ++ (ps.map Prod.fst)).Nodup →
      TableWF (t.insertAll ps) ∧ Content (t.insertAll ps) (m ++ ps) := by
  induction ps with
  | nil =>
      intro t m hwf hcont hnd
      simpa [ExtendibleHashTable.insertAll] using And.intro hwf hcont
  | cons q ps ih =>
      intro t m hwf hcont hnd
      have hmn : (m.map Prod.fst).Nodup := (List.nodup_append.mp hnd).1
      have hfresh : ∀ p ∈ m, p.1 ≠ q.1 := by
        intro p hpm he
        exact (List.nodup_append.mp hnd).2.2 (List.mem_map.mpr ⟨p, hpm, rfl⟩)
          (by rw [he]; exact List.mem_map.mpr ⟨q, by simp, rfl⟩)
      obtain ⟨hwf1, hcont1⟩ := Insert_correct t m q.1 q.2 hwf hcont hmn hfresh
      have hstep : t.insertAll (q :: ps) = (t.Insert q.1 q.2).insertAll ps := rfl
      rw [hstep]
      have hnd2 : (((m ++ [q]).map Prod.fst) ++ ps.map Prod.fst).Nodup := by
        rw [List.map_append, List.append_assoc]
        simpa using hnd
      have hres := ih (t.Insert q.1 q.2) (m ++ [q]) hwf1 hcont1 hnd2
      rw [List.append_assoc] at hres
      simpa using hres

/-- with pairwise distinct keys, filtering an association list at a key
it holds returns exactly that pair. -/
theorem filter_eq_singleton_of_nodup (ps : List (Nat × Nat)) (k v : Nat) :
    (ps.map Prod.fst).Nodup → (k, v) ∈ ps →
    ps.filter (fun p => p.1 == k) = [(k, v)] := by
  induction ps with
  | nil => intro h1 h2; cases h2
  | cons q ps ih =>
      intro hnd hmem
      have hnd1 : (ps.map Prod.fst).Nodup := (List.nodup_cons.mp (by simpa using hnd)).2
      have hq : q.1 ∉ ps.map Prod.fst := (List.nodup_cons.mp (by simpa using hnd)).1
      rcases List.mem_cons.mp hmem with h | h
      · subst h
        rw [List.filter_cons_of_pos (by simp)]
        have hnil : ps.filter (fun p => p.1 == k) = [] := by
          rw [List.filter_eq_nil_iff]
          intro p hp hpk
          exact hq (List.mem_map.mpr ⟨p, hp, by simpa using hpk⟩)
        rw [hnil]
      · have hqk : q.1 ≠ k := by
          intro he
          exact hq (List.mem_map.mpr ⟨(k, v), h, he.symm⟩)
        rw [List.filter_cons_of_neg (by simp [hqk])]
        exact ih hnd1 h

/-- C5: for every sequence of `Insert` calls with pairwise-distinct keys
on a fresh table of positive bucket size, a subsequent `Find(k)` for any
inserted key `k` returns the value inserted with `k`. -/
theorem C5_insertAll_find_roundtrip (bsz : Nat) (hb : 0 < bsz)
    (ps : List (Nat × Nat)) (hnd : (ps.map Prod.fst).Nodup)
    (k v : Nat) (hmem : (k, v) ∈ ps) :
    ((ExtendibleHashTable.new bsz).insertAll ps).Find k = some v := by
  obtain ⟨hwf, hcont⟩ := insertAll_correct ps (ExtendibleHashTable.new bsz) []
    (tableWF_new bsz hb) (content_new bsz) (by simpa using hnd)
  have hc := hcont k
  rw [List.nil_append] at hc
  unfold ExtendibleHashTable.Find Bucket.Find
  rw [find?_eq_filter_head, hc, filter_eq_singleton_of_nodup ps k v hnd hmem]
  rfl

/-- C5 witness: four inserts that force directory doublings at bucket
size 2, then a lookup. -/
theorem C5_witness :
    0 < 2 ∧
    (([(5, 50), (2, 20), (3, 30), (7, 70)].map Prod.fst).Nodup) ∧
    ((2 : Nat), (20 : Nat)) ∈ [(5, 50), (2, 20), (3, 30), (7, 70)] ∧
    ((ExtendibleHashTable.new 2).insertAll
      [(5, 50), (2, 20), (3, 30), (7, 70)]).Find 2 = some 20 :=
  ⟨by decide, by decide, by decide,
    C5_insertAll_find_roundtrip 2 (by decide) [(5, 50), (2, 20), (3, 30), (7, 70)]
      (by decide) 2 20 (by decide)⟩
